import Mathlib

/-!
Verification development for the oras-py OCI registry client library.

Each definition below is a shallow embedding of a function of the Python
source (file and symbol named in the doc comment).  Machine-level concerns
(HTTP, filesystem, subprocesses) are modelled by passing the observable
outcomes of the external calls as explicit arguments, while all control
flow and data manipulation of the Python code is translated directly.
-/

namespace Oras

/-! ## Constants from oras/defaults.py -/

/-- oras/defaults.py: `default_tag = "latest"`. -/
def default_tag : List Char := "latest".toList

/-- oras/defaults.py: `registry.index_name = "docker.io"`. -/
def index_name : List Char := "docker.io".toList

/-- oras/defaults.py: `unknown_config_media_type`. -/
def unknown_config_media_type : String := "application/vnd.unknown.config.v1+json"

/-- oras/defaults.py: `default_manifest_media_type`. -/
def default_manifest_media_type : String := "application/vnd.oci.image.manifest.v1+json"

/-- oras/defaults.py: `default_index_media_type`. -/
def default_index_media_type : String := "application/vnd.oci.image.index.v1+json"

/-- oras/defaults.py: `blank_hash`, the digest of the empty blob. -/
def blank_hash : String := "sha256:e3b0c44298fc1c149afbf4c8996fb92427ae41e4649b934ca495991b7852b855"

/-- oras/defaults.py: `blank_config_hash`, the digest of the two-byte empty JSON object. -/
def blank_config_hash : String := "sha256:44136fa355b3678a1146ad16f7e8649e94fb4fc21fe77e8310c060f61caaff8a"

/-! ## SHA-256

The Python code obtains digests from `hashlib.sha256`.  To check the two
well-known constants above we embed SHA-256 (FIPS 180-4) over `Nat`, with
explicit reduction modulo 2^32. -/

/-- Reduce to a 32-bit word. -/
def w32 (n : Nat) : Nat := n % 4294967296

/-- Right rotation of a 32-bit word. -/
def rotr (n x : Nat) : Nat := w32 ((x >>> n) ||| (x <<< (32 - n)))

/-- SHA-256 Ch function; complement is XOR with the all-ones word. -/
def sha2ch (x y z : Nat) : Nat := (x &&& y) ^^^ ((x ^^^ 4294967295) &&& z)

/-- SHA-256 Maj function. -/
def sha2maj (x y z : Nat) : Nat := (x &&& y) ^^^ (x &&& z) ^^^ (y &&& z)

/-- SHA-256 Σ0. -/
def bigSigma0 (x : Nat) : Nat := rotr 2 x ^^^ rotr 13 x ^^^ rotr 22 x

/-- SHA-256 Σ1. -/
def bigSigma1 (x : Nat) : Nat := rotr 6 x ^^^ rotr 11 x ^^^ rotr 25 x

/-- SHA-256 σ0. -/
def smallSigma0 (x : Nat) : Nat := rotr 7 x ^^^ rotr 18 x ^^^ (x >>> 3)

/-- SHA-256 σ1. -/
def smallSigma1 (x : Nat) : Nat := rotr 17 x ^^^ rotr 19 x ^^^ (x >>> 10)

/-- SHA-256 round constants. -/
def sha2K : List Nat :=
  [1116352408, 1899447441, 3049323471, 3921009573, 961987163, 1508970993,
   2453635748, 2870763221, 3624381080, 310598401, 607225278, 1426881987,
   1925078388, 2162078206, 2614888103, 3248222580, 3835390401, 4022224774,
   264347078, 604807628, 770255983, 1249150122, 1555081692, 1996064986,
   2554220882, 2821834349, 2952996808, 3210313671, 3336571891, 3584528711,
   113926993, 338241895, 666307205, 773529912, 1294757372, 1396182291,
   1695183700, 1986661051, 2177026350, 2456956037, 2730485921, 2820302411,
   3259730800, 3345764771, 3516065817, 3600352804, 4094571909, 275423344,
   430227734, 506948616, 659060556, 883997877, 958139571, 1322822218,
   1537002063, 1747873779, 1955562222, 2024104815, 2227730452, 2361852424,
   2428436474, 2756734187, 3204031479, 3329325298]

/-- Working state of the SHA-256 compression function. -/
structure Digest8 where
  a : Nat
  b : Nat
  c : Nat
  d : Nat
  e : Nat
  f : Nat
  g : Nat
  h : Nat
deriving DecidableEq, Repr

/-- SHA-256 initial hash value. -/
def sha2H0 : Digest8 :=
  ⟨1779033703, 3144134277, 1013904242, 2773480762,
   1359893119, 2600822924, 528734635, 1541459225⟩

/-- Append the next word of the message schedule. -/
def scheduleStep (w : List Nat) : List Nat :=
  let n := w.length
  w ++ [w32 (smallSigma1 (w.getD (n - 2) 0) + w.getD (n - 7) 0 +
             smallSigma0 (w.getD (n - 15) 0) + w.getD (n - 16) 0)]

/-- Iterate `scheduleStep`. -/
def buildSchedule (w : List Nat) : Nat → List Nat
  | 0 => w
  | k + 1 => buildSchedule (scheduleStep w) k

/-- One SHA-256 round. -/
def sha2round (st : Digest8) (kw : Nat × Nat) : Digest8 :=
  let t1 := w32 (st.h + bigSigma1 st.e + sha2ch st.e st.f st.g + kw.1 + kw.2)
  let t2 := w32 (bigSigma0 st.a + sha2maj st.a st.b st.c)
  ⟨w32 (t1 + t2), st.a, st.b, st.c, w32 (st.d + t1), st.e, st.f, st.g⟩

/-- Compress one 16-word block into the running state. -/
def compressBlock (st : Digest8) (block : List Nat) : Digest8 :=
  let w := buildSchedule block 48
  let fin := (sha2K.zip w).foldl sha2round st
  ⟨w32 (st.a + fin.a), w32 (st.b + fin.b), w32 (st.c + fin.c), w32 (st.d + fin.d),
   w32 (st.e + fin.e), w32 (st.f + fin.f), w32 (st.g + fin.g), w32 (st.h + fin.h)⟩

/-- SHA-256 padding: a 0x80 byte, zeros, then the 64-bit big-endian bit length. -/
def padMessage (msg : List Nat) : List Nat :=
  let l := msg.length
  let zeros := (119 - l % 64) % 64
  msg ++ [128] ++ List.replicate zeros 0 ++
    (List.range 8).map (fun i => ((8 * l) >>> (56 - 8 * i)) % 256)

/-- Group bytes into big-endian 32-bit words. -/
def bytesToWords : List Nat → List Nat
  | b0 :: b1 :: b2 :: b3 :: rest =>
      (b0 * 16777216 + b1 * 65536 + b2 * 256 + b3) :: bytesToWords rest
  | _ => []

/-- Split a byte list into 64-byte blocks (fuel-structured recursion). -/
def toBlocksF : Nat → List Nat → List (List Nat)
  | 0, _ => []
  | _, [] => []
  | fuel + 1, l => l.take 64 :: toBlocksF fuel (l.drop 64)

/-- SHA-256 of a byte list, as the final working state. -/
def sha256digest (msg : List Nat) : Digest8 :=
  let padded := padMessage msg
  ((toBlocksF padded.length padded).map bytesToWords).foldl compressBlock sha2H0

/-- Lowercase hexadecimal digit. -/
def hexNibble (n : Nat) : Char := "0123456789abcdef".toList.getD n '0'

/-- Eight hex characters of a 32-bit word, big-endian. -/
def wordHex (w : Nat) : List Char :=
  (List.range 8).map (fun i => hexNibble ((w >>> (28 - 4 * i)) % 16))

/-- SHA-256 of a byte list as a lowercase hex character list, exactly what
Python's `hashlib.sha256(...).hexdigest()` returns. -/
def sha256hex (msg : List Nat) : List Char :=
  let d := sha256digest msg
  [d.a, d.b, d.c, d.d, d.e, d.f, d.g, d.h].flatMap wordHex

/-! ## HTTP responses

A `requests.Response` is modelled by the two fields the dispatcher and the
blob-upload wrapper inspect or synthesize: the status code and an opaque
body.  A freshly constructed `requests.Response()` has an empty body. -/

/-- Model of a `requests.Response`: status code plus opaque body. -/
structure Response where
  status_code : Nat
  content : String
deriving DecidableEq, Repr

/-- Result of one call to `Registry.do_request`: the returned response plus
trace counters for how many times `session.request` and
`authenticate_request` were invoked. -/
structure DispatchResult where
  response : Response
  requestsSent : Nat
  authCalls : Nat
deriving DecidableEq, Repr

/-- Model of `Registry.do_request` (oras/provider.py, lines 820-890).

The external world is passed in as arguments: `r1` is the response to the
initial `session.request`; `authRetry` is the boolean returned by
`self.authenticate_request(response)`; `r2` is the response to the re-sent
request when `authRetry` is true; `hasAuthz` says whether
`"Authorization" in self.headers` holds at the fallback check; `r3` is the
response to the final fallback request.  The Python code is:

    response = session.request(...)
    if response.status_code not in [401, 404]:
        return response
    if self.authenticate_request(response):
        headers.update(self.headers)
        response = session.request(...)
    if response.status_code in [401, 404] and "Authorization" in self.headers:
        headers.update(self.headers)
        response = session.request(...)
    return response
-/
def do_request (r1 r2 r3 : Response) (authRetry hasAuthz : Bool) : DispatchResult :=
  if r1.status_code ∉ [401, 404] then
    ⟨r1, 1, 0⟩
  else
    let afterAuth : Response × Nat := if authRetry then (r2, 2) else (r1, 1)
    if afterAuth.1.status_code ∈ [401, 404] ∧ hasAuthz then
      ⟨r3, afterAuth.2 + 1, 1⟩
    else
      ⟨afterAuth.1, afterAuth.2, 1⟩

/-- Model of `Registry.upload_blob` (oras/provider.py, lines 199-240): the
response of the underlying `put_upload`/`chunked_upload` is replaced by a
synthesized success when the registry rejected the well-known empty blob.

    if response.status_code not in [200, 201, 202] and layer["digest"] == oras.defaults.blank_hash:
        response = requests.Response()
        response.status_code = 200
-/
def upload_blob (underlying : Response) (layerDigest : String) : Response :=
  if underlying.status_code ∉ [200, 201, 202] ∧ layerDigest = blank_hash then
    { status_code := 200, content := "" }
  else
    underlying

/-! ## Tag listing with pagination (oras/provider.py)

The registry's paginated answers are modelled as the chain of pages the
loop in `Registry._do_paginated_request` walks: each page carries its
`tags` payload and whether the response had a `Link rel="next"` header. -/

/-- One page of the `tags/list` pagination chain. -/
structure TagPage where
  tags : List String
  hasNext : Bool
deriving DecidableEq, Repr

/-- The page-consuming loop of `Registry._do_paginated_request` combined
with the `extract_tags` callback of `Registry.get_tags` (oras/provider.py,
lines 276-338).  `retrieveAll` is `N is None`; the callback extends the
accumulator and wants more only while the page contributed tags and (all
requested or still under the limit); the loop then stops when there is no
next link. -/
def getTagsLoop : List TagPage → Bool → Nat → List String → List String
  | [], _, _, acc => acc
  | p :: rest, retrieveAll, n, acc =>
      let acc2 := acc ++ p.tags
      if p.tags.length ≠ 0 ∧ (retrieveAll ∨ acc2.length < n) then
        if p.hasNext then getTagsLoop rest retrieveAll n acc2 else acc2
      else acc2

/-- Model of `Registry.get_tags(container, N)`: run the paginated loop and
truncate to `N` if the server returned more. -/
def get_tags (pages : List TagPage) (N : Option Nat) : List String :=
  let t := getTagsLoop pages N.isNone (N.getD 0) []
  match N with
  | some k => if t.length > k then t.take k else t
  | none => t

/-- A well-formed pagination chain: nonempty, every page but the last
carries a next link, and the last does not. -/
def chainLinked : List TagPage → Bool
  | [] => false
  | [p] => !p.hasNext
  | p :: rest => p.hasNext && chainLinked rest

/-! ## Credential helpers (oras/auth/base.py) -/

/-- Base64 alphabet (RFC 4648). -/
def base64Alphabet : List Char :=
  "ABCDEFGHIJKLMNOPQRSTUVWXYZabcdefghijklmnopqrstuvwxyz0123456789+/".toList

/-- Character for a 6-bit group. -/
def b64char (n : Nat) : Char := base64Alphabet.getD n 'A'

/-- Base64 encoding of a byte list, as produced by Python's
`base64.b64encode`. -/
def base64Encode : List Nat → List Char
  | [] => []
  | [b0] => [b64char (b0 / 4), b64char (b0 % 4 * 16), '=', '=']
  | [b0, b1] => [b64char (b0 / 4), b64char (b0 % 4 * 16 + b1 / 16), b64char (b1 % 16 * 4), '=']
  | b0 :: b1 :: b2 :: rest =>
      b64char (b0 / 4) :: b64char (b0 % 4 * 16 + b1 / 16) ::
      b64char (b1 % 16 * 4 + b2 / 64) :: b64char (b2 % 64) :: base64Encode rest

/-- UTF-8 encoding of one character. -/
def utf8Bytes (c : Char) : List Nat :=
  let n := c.toNat
  if n < 128 then [n]
  else if n < 2048 then [192 + n / 64, 128 + n % 64]
  else if n < 65536 then [224 + n / 4096, 128 + n / 64 % 64, 128 + n % 64]
  else [240 + n / 262144, 128 + n / 4096 % 64, 128 + n / 64 % 64, 128 + n % 64]

/-- UTF-8 bytes of a string, as Python's `str.encode("utf-8")`. -/
def strUtf8 (s : String) : List Nat := s.toList.flatMap utf8Bytes

/-- Model of `get_basic_auth(username, password)` (oras/auth.py):
`base64.b64encode(f"{username}:{password}".encode("utf-8"))` decoded back
to a string. -/
def get_basic_auth (username password : String) : String :=
  String.mk (base64Encode (strUtf8 (username ++ ":" ++ password)))

/-- What `json.loads` makes of the helper's stdout: either it raises
(malformed JSON) or yields an object with optional `Username` and `Secret`
fields. -/
inductive JsonOut where
  | malformed : JsonOut
  | object (username : Option String) (secret : Option String) : JsonOut
deriving DecidableEq, Repr

/-- Outcome of running the `docker-credential-<name>` helper binary
(`subprocess.run` with `check=True`): the binary may be missing from PATH
(`FileNotFoundError`), exit non-zero (`CalledProcessError`), or succeed
with some stdout. -/
inductive HelperRun where
  | missing : HelperRun
  | exitNonzero (stderr : String) : HelperRun
  | success (stdout : JsonOut) : HelperRun
deriving DecidableEq, Repr

/-- Observable outcome of `AuthBackend._get_auth_from_creds_store`. -/
inductive CredsOutcome where
  | warnedNone : CredsOutcome
  | raised : CredsOutcome
  | found (auth : String) : CredsOutcome
deriving DecidableEq, Repr

/-- Model of `AuthBackend._get_auth_from_creds_store` (oras/auth/base.py,
lines 67-86).  The subprocess call's outcome is passed in as a function of
the binary name.  The Python code catches `FileNotFoundError` and
`CalledProcessError` (warning, `return None`), then runs
`payload = json.loads(proc.stdout)` and
`get_basic_auth(payload["Username"], payload["Secret"])` unguarded, so a
malformed stdout or a missing key raises. -/
def get_auth_from_creds_store (suffix : String) (run : String → HelperRun) : CredsOutcome :=
  match run ("docker-credential-" ++ suffix) with
  | .missing => .warnedNone
  | .exitNonzero _ => .warnedNone
  | .success .malformed => .raised
  | .success (.object (some u) (some s)) => .found (get_basic_auth u s)
  | .success (.object _ _) => .raised

/-! ## Manifest config construction (oras/oci.py) -/

/-- The filesystem facts `ManifestConfig` consults: whether a path exists,
and the size and SHA-256 hex digest of the file at a path. -/
structure FileStats where
  pathExists : String → Bool
  size : String → Nat
  sha256OfFile : String → String

/-- Descriptor dictionary built by `ManifestConfig`. -/
structure ConfigDesc where
  mediaType : String
  size : Nat
  digest : String
deriving DecidableEq, Repr

/-- Python truthiness of an optional string (`None` and `""` are falsy). -/
def pyFalsy : Option String → Bool
  | none => true
  | some s => s = ""

/-- Python `a or b` for an optional string against a default. -/
def pyOr (a : Option String) (d : String) : String :=
  match a with
  | none => d
  | some s => if s = "" then d else s

/-- Model of `ManifestConfig(path, media_type)` (oras/oci.py, lines
121-149).  The Python code:

    if not path or not os.path.exists(path):
        path = None
        conf = dict mediaType / size 2 / blank_config_hash
    else:
        conf = dict mediaType / get_size(path) / sha256 of file
    return conf, path
-/
def ManifestConfig (path : Option String) (media_type : Option String)
    (fs : FileStats) : ConfigDesc × Option String :=
  if pyFalsy path ∨ fs.pathExists (path.getD "") = false then
    (⟨pyOr media_type unknown_config_media_type, 2, blank_config_hash⟩, none)
  else
    (⟨pyOr media_type unknown_config_media_type, fs.size (path.getD ""),
      "sha256:" ++ fs.sha256OfFile (path.getD "")⟩, path)

/-! ## Reproducible tar archives (oras/utils/fileio.py)

`make_targz` drives Python's `tarfile.add(source_dir, filter=reset,
arcname=basename(source_dir))` writing through a `gzip.GzipFile(mtime=0)`.
`tarfile.add` emits an entry for the path itself and, for directories,
recurses into `sorted(os.listdir(path))`; every `TarInfo` carries the
stat metadata (mtime, uid, gid, uname, gname, mode) and is passed through
the filter before being written.  The directory tree and its metadata are
modelled explicitly. -/

/-- Stat metadata captured in a `tarfile.TarInfo`. -/
structure FileMeta where
  mtime : Nat
  uid : Nat
  gid : Nat
  uname : String
  gname : String
  mode : Nat
deriving DecidableEq, Repr

/-- An on-disk tree: regular files with contents, directories with children. -/
inductive FileTree where
  | file (name : String) (meta : FileMeta) (content : List Nat) : FileTree
  | dir (name : String) (meta : FileMeta) (children : List FileTree) : FileTree

/-- Base name of a tree node. -/
def FileTree.name : FileTree → String
  | .file n _ _ => n
  | .dir n _ _ => n

/-- Metadata of a tree node. -/
def FileTree.meta : FileTree → FileMeta
  | .file _ m _ => m
  | .dir _ m _ => m

/-- Whether a tree node is a directory. -/
def FileTree.isDir : FileTree → Bool
  | .file _ _ _ => false
  | .dir _ _ _ => true

/-- Content of a tree node (empty for directories). -/
def FileTree.content : FileTree → List Nat
  | .file _ _ c => c
  | .dir _ _ _ => []

/-- One tar archive member as written by `tarfile`. -/
structure TarEntry where
  name : String
  mtime : Nat
  uid : Nat
  gid : Nat
  uname : String
  gname : String
  mode : Nat
  isDir : Bool
  content : List Nat
deriving DecidableEq, Repr

/-- Model of `reset(tarinfo)` (oras/utils/fileio.py, lines 30-33): zero the
modification time and return the entry; nothing else is touched. -/
def reset (t : TarEntry) : TarEntry := { t with mtime := 0 }

/-- The `TarInfo` tarfile builds for a path before filtering. -/
def entryOf (arcname : String) (isDir : Bool) (meta : FileMeta)
    (content : List Nat) : TarEntry :=
  ⟨arcname, meta.mtime, meta.uid, meta.gid, meta.uname, meta.gname, meta.mode,
   isDir, content⟩

/-- Insert into a name-sorted list of child results. -/
def insertByName (x : String × List TarEntry) :
    List (String × List TarEntry) → List (String × List TarEntry)
  | [] => [x]
  | y :: ys => if x.1 ≤ y.1 then x :: y :: ys else y :: insertByName x ys

/-- Sort child results by name, modelling `sorted(os.listdir(path))`. -/
def sortByName : List (String × List TarEntry) → List (String × List TarEntry)
  | [] => []
  | x :: xs => insertByName x (sortByName xs)

mutual

/-- Model of `tarfile.TarFile.add(path, arcname, filter=reset)`: emit the
filtered entry for the path itself, then recurse into the children in
sorted name order. -/
def tarAdd (arcname : String) : FileTree → List TarEntry
  | .file _ meta content => [reset (entryOf arcname false meta content)]
  | .dir _ meta children =>
      reset (entryOf arcname true meta []) ::
        (sortByName (tarAddChildren arcname children)).flatMap (·.2)

/-- Archive each child under `arcname/childname`, keyed by child name. -/
def tarAddChildren (arcname : String) : List FileTree → List (String × List TarEntry)
  | [] => []
  | c :: cs =>
      (c.name, tarAdd (arcname ++ "/" ++ c.name) c) :: tarAddChildren arcname cs

end

/-- A gzip-compressed tar archive: the gzip header timestamp plus the tar
members in order. -/
structure TarGzArchive where
  gzipMtime : Nat
  entries : List TarEntry
deriving DecidableEq, Repr

/-- Model of `make_targz(source_dir)` (oras/utils/fileio.py, lines 36-53):
`gzip.GzipFile(mtime=0)` wrapping `tar.add(source_dir, filter=reset,
arcname=os.path.basename(source_dir))`. -/
def make_targz (source : FileTree) : TarGzArchive :=
  ⟨0, tarAdd source.name source⟩

/-! ## Path handling and safe extraction (oras/utils/fileio.py)

Paths are character lists.  `pathJoin`, `splitSlash`, `normpath`,
`abspath` and `commonPref` embed the CPython `posixpath` routines that
`extract_targz`/`is_within_directory` call into. -/

/-- `posixpath.join(a, b)`: an absolute second component replaces the
first, otherwise the parts are joined with a single separator. -/
def pathJoin (a b : List Char) : List Char :=
  if b.head? = some '/' then b
  else if a = [] ∨ a.getLast? = some '/' then a ++ b
  else a ++ '/' :: b

/-- Helper for splitting a path on slashes. -/
def splitSlashAux : List Char → List Char → List (List Char)
  | [], cur => [cur.reverse]
  | '/' :: rest, cur => cur.reverse :: splitSlashAux rest []
  | c :: rest, cur => splitSlashAux rest (c :: cur)

/-- Python `path.split("/")`. -/
def splitSlash (l : List Char) : List (List Char) := splitSlashAux l []

/-- One step of `posixpath.normpath`'s component scan: skip empty and `.`
components, pop on `..` where possible, keep `..` at the start of a
relative path. -/
def normStep (absRoot : Bool) (acc : List (List Char)) (comp : List Char) :
    List (List Char) :=
  if comp = [] ∨ comp = ['.'] then acc
  else if comp ≠ ['.', '.'] ∨ (absRoot = false ∧ acc = [])
      ∨ (acc ≠ [] ∧ acc.getLast? = some ['.', '.']) then acc ++ [comp]
  else if acc ≠ [] then acc.dropLast
  else acc

/-- Number of root slashes kept by `posixpath.normpath` (the POSIX
double-slash special case). -/
def initialSlashes (p : List Char) : Nat :=
  if p.head? ≠ some '/' then 0
  else if p.take 2 = ['/', '/'] ∧ p.take 3 ≠ ['/', '/', '/'] then 2
  else 1

/-- `posixpath.normpath`: collapse separators, `.` and `..` textually. -/
def normpath (p : List Char) : List Char :=
  if p = [] then ['.']
  else
    let slashes := initialSlashes p
    let newComps := (splitSlash p).foldl (normStep (slashes ≠ 0)) []
    let joined := List.replicate slashes '/' ++ (List.intercalate ['/'] newComps)
    if joined = [] then ['.'] else joined

/-- `posixpath.abspath` relative to an explicit working directory. -/
def abspath (cwd p : List Char) : List Char :=
  if p.head? = some '/' then normpath p else normpath (pathJoin cwd p)

/-- `os.path.commonprefix` of two paths: their longest common string
prefix, character by character. -/
def commonPref : List Char → List Char → List Char
  | c :: cs, d :: ds => if c = d then c :: commonPref cs ds else []
  | _, _ => []

/-- Model of `is_within_directory(directory, target)` (oras/utils/fileio.py,
lines 192-199): the common string prefix of the two absolute paths must be
the directory itself. -/
def is_within_directory (cwd directory target : List Char) : Bool :=
  let absDir := abspath cwd directory
  let absTar := abspath cwd target
  commonPref absDir absTar = absDir

/-- Model of `extract_targz(targz, outdir)` (oras/utils/fileio.py, lines
94-104): every member is checked before anything is extracted; if all pass,
`tar.extractall(outdir)` writes each member to `outdir` joined with its
name. -/
def extract_targz (cwd : List Char) (members : List (List Char))
    (outdir : List Char) : Except String (List (List Char)) :=
  if members.all (fun m => is_within_directory cwd outdir (pathJoin outdir m)) then
    .ok (members.map (fun m => pathJoin outdir m))
  else
    .error "Attempted Path Traversal in Tar File"

/-- The specification's notion of containment, written from the spec's
words: a member's destination, taken as an absolute path, is contained
within `outdir` when it equals the directory or lies below it. -/
def containedWithin (cwd outdir member : List Char) : Prop :=
  abspath cwd (pathJoin outdir member) = abspath cwd outdir
  ∨ ((abspath cwd outdir) ++
      (if (abspath cwd outdir).getLast? = some '/' then [] else ['/']))
      <+: abspath cwd (pathJoin outdir member)

/-! ## OCI layout traversal (oras/layout/layout.py)

A layout's blob store maps digests to blob contents; only the fields
`Layout._process_manifest` reads are kept: an image manifest's layer
digests and optional config digest, an index's sub-manifest digests, and
anything else (whose processing raises `ValueError`; a missing blob file
raises `FileNotFoundError`).  Failure is `none`; the recursion is
fuel-indexed since the Python code would not terminate on a cyclic store. -/

/-- A blob as seen by the traversal. -/
inductive Blob where
  | image (layers : List String) (config : Option String) : Blob
  | index (subs : List String) : Blob
  | other : Blob
deriving DecidableEq, Repr

/-- The `blobs/<algo>/<hex>` directory as a digest-keyed association list. -/
abbrev Store := List (String × Blob)

/-- Look up a digest's blob file. -/
def lookupBlob (store : Store) (d : String) : Option Blob :=
  (store.find? (fun p => p.1 = d)).map (·.2)

/-- `if digest not in collected: collected.append(digest)`. -/
def appendNew (c : List String) (d : String) : List String :=
  if d ∈ c then c else c ++ [d]

/-- The config part of the image-manifest case:
`if config_digest and config_digest not in collected: append`. -/
def configStep (config : Option String) (c1 : List String) : List String :=
  match config with
  | some cd => if cd ≠ "" then appendNew c1 cd else c1
  | none => c1

/-- The image-manifest case of `Layout._process_manifest` (oras/layout/
layout.py, lines 210-221): append the not-yet-collected layer digests in
order, then the config digest when present, truthy and new, then the
manifest's own digest when new. -/
def imageStep (layers : List String) (config : Option String) (digest : String)
    (c : List String) : List String :=
  appendNew (configStep config (layers.foldl appendNew c)) digest

/-- Model of `Layout._process_manifest` (oras/layout/layout.py, lines
183-235): recursive traversal collecting digests in dependency order. -/
def processManifest : Nat → Store → String → List String → Option (List String)
  | 0, _, _, _ => none
  | fuel + 1, store, digest, c =>
    match lookupBlob store digest with
    | none => none
    | some (.image ls co) => some (imageStep ls co digest c)
    | some (.index subs) =>
        Option.map (fun c2 => appendNew c2 digest)
          (subs.foldlM (fun acc e => processManifest fuel store e acc) c)
    | some .other => none

/-- One top-level entry of the layout's `index.json`. -/
structure IndexEntry where
  digest : String
  refName : Option String
deriving DecidableEq, Repr

/-- The tag lookup of `Layout.get_ordered_blobs` (oras/layout/layout.py,
lines 160-174): first entry whose `org.opencontainers.image.ref.name`
annotation equals the tag; a missing or falsy digest is an error. -/
def findTagDigest (entries : List IndexEntry) (tag : String) : Option String :=
  match entries.find? (fun e => e.refName = some tag) with
  | none => none
  | some e => if e.digest = "" then none else some e.digest

/-- Model of `Layout.get_ordered_blobs` (oras/layout/layout.py, lines
143-181). -/
def getOrderedBlobs (fuel : Nat) (store : Store) (entries : List IndexEntry)
    (tag : String) : Option (List String) :=
  (findTagDigest entries tag).bind (fun root => processManifest fuel store root [])

/-- The manifests the traversal visits: a digest reaches itself, and an
index reaches whatever its sub-manifests reach. -/
inductive Reaches (store : Store) : String → String → Prop where
  | refl (d : String) : Reaches store d d
  | sub (d : String) (subs : List String) (e r : String) :
      lookupBlob store d = some (.index subs) → e ∈ subs →
      Reaches store e r → Reaches store d r

/-! ## Container references (oras/container.py)

`Container.parse` matches the name against

    (?:(?P<registry>[^/@]+[.:][^/@]*)/)?
    (?P<namespace>(?:[^:@/]+/)+)?
    (?P<repository>[^:@/]+)
    (?::(?P<tag>[^:@]+))?
    (?:@(?P<digest>.+))?
    $

with `re.search`.  The embedding compiles this regex by hand: each group
contributes a list of candidate (captured value, remaining input) pairs in
the engine's backtracking preference order and the match is the first
chain of candidates that reaches the end anchor.  The candidate orders
follow Python's semantics: a greedy optional group prefers matching; a
greedy `+`/`*`/`.+` prefers the longest vein; `$` accepts the end of the
string or a final newline; `re.search` tries successive start positions.
Each candidate list is derived from the character classes: the registry
group cannot cross `/` so it can only be the prefix before the first
slash; a namespace segment is a maximal nonempty `[^:@/]` run followed by
`/`, so the segment chain is unique and only its length backtracks. -/

/-- The `[^/@]` class of the registry group. -/
def regChar (c : Char) : Bool := c ≠ '/' && c ≠ '@'

/-- The `[^:@/]` class of namespace segments and the repository. -/
def repoChar (c : Char) : Bool := c ≠ ':' && c ≠ '@' && c ≠ '/'

/-- The `[^:@]` class of the tag group. -/
def tagChar (c : Char) : Bool := c ≠ ':' && c ≠ '@'

/-- The `.` class of the digest group (no newline). -/
def dotAny (c : Char) : Bool := c ≠ '\n'

/-- Whether a slash-free prefix matches `[^/@]+[.:][^/@]*`: no `/` or `@`,
and a `.` or `:` at some position past the first. -/
def registryPat (p : List Char) : Bool :=
  p.all regChar && (p.drop 1).any (fun c => c = '.' || c = ':')

/-- Candidates of `(?:(registry)/)?`: the prefix before the first slash
when it matches the registry pattern (preferred), then the empty option. -/
def registryCands (s : List Char) : List (Option (List Char) × List Char) :=
  let p := s.takeWhile (fun c => c ≠ '/')
  if p.length < s.length && registryPat p then
    [(some p, s.drop (p.length + 1)), (none, s)]
  else [(none, s)]

/-- All splits of `(?:[^:@/]+/)+` after 1, 2, … segments, in chain order.
Each segment is forced (a maximal class run then `/`), so only the number
of segments can backtrack. -/
def nsSplitsF : Nat → List Char → List (List Char × List Char)
  | 0, _ => []
  | fuel + 1, s =>
    let run := s.takeWhile repoChar
    if run.length ≠ 0 ∧ (s.drop run.length).head? = some '/' then
      (run ++ ['/'], s.drop (run.length + 1)) ::
        (nsSplitsF fuel (s.drop (run.length + 1))).map
          (fun pr => (run ++ '/' :: pr.1, pr.2))
    else []

/-- Candidates of the optional greedy namespace group: most segments
first, then the empty option. -/
def nsCands (s : List Char) : List (Option (List Char) × List Char) :=
  ((nsSplitsF s.length s).reverse.map (fun pr => (some pr.1, pr.2))) ++ [(none, s)]

/-- Nonempty prefixes of the greedy run, longest first. -/
def greedyCands (run : List Char) (s : List Char) : List (List Char × List Char) :=
  (List.range run.length).map
    (fun i => (s.take (run.length - i), s.drop (run.length - i)))

/-- Candidates of `(repository)`, a greedy `[^:@/]+`. -/
def repoCands (s : List Char) : List (List Char × List Char) :=
  greedyCands (s.takeWhile repoChar) s

/-- Candidates of `(?::(tag))?`. -/
def tagCands (s : List Char) : List (Option (List Char) × List Char) :=
  (match s with
   | c :: rest =>
       if c = ':' then
         (greedyCands (rest.takeWhile tagChar) rest).map
           (fun pr => (some pr.1, pr.2))
       else []
   | [] => []) ++ [(none, s)]

/-- Candidates of `(?:@(digest))?`. -/
def digestCands (s : List Char) : List (Option (List Char) × List Char) :=
  (match s with
   | c :: rest =>
       if c = '@' then
         (greedyCands (rest.takeWhile dotAny) rest).map
           (fun pr => (some pr.1, pr.2))
       else []
   | [] => []) ++ [(none, s)]

/-- The `$` anchor without MULTILINE: end of string or before a final
newline. -/
def atEnd (s : List Char) : Bool := s = [] || s = ['\n']

/-- The named groups of one match. -/
structure RegexGroups where
  registry : Option (List Char)
  nspace : Option (List Char)
  repository : List Char
  tag : Option (List Char)
  digest : Option (List Char)
deriving DecidableEq, Repr

/-- Anchored match of the reference grammar at the start of `s`, taking
the first full candidate chain in backtracking order. -/
def matchFrom (s : List Char) : Option RegexGroups :=
  (registryCands s).findSome? fun rg =>
  (nsCands rg.2).findSome? fun ns =>
  (repoCands ns.2).findSome? fun rp =>
  (tagCands rp.2).findSome? fun tg =>
  (digestCands tg.2).findSome? fun dg =>
  if atEnd dg.2 then some ⟨rg.1, ns.1, rp.1, tg.1, dg.1⟩ else none

/-- `re.search`: try each start position left to right. -/
def searchGroups : List Char → Option RegexGroups
  | [] => matchFrom []
  | c :: cs =>
    match matchFrom (c :: cs) with
    | some g => some g
    | none => searchGroups cs

/-- A parsed container reference (oras/container.py). -/
structure Container where
  registry : List Char
  nspace : Option (List Char)
  repository : List Char
  tag : List Char
  digest : Option (List Char)
deriving DecidableEq, Repr

/-- Python `str.strip("/")`. -/
def pyStripSlash (l : List Char) : List Char :=
  ((l.dropWhile (fun c => c = '/')).reverse.dropWhile (fun c => c = '/')).reverse

/-- Model of `Container.parse` (oras/container.py, lines 96-122) with the
default registry of the constructor: match the regex, fall back to
`docker.io` and `latest` for missing registry and tag, reject an empty
repository, and strip slashes from a truthy namespace. -/
def parseContainer (name : List Char) : Option Container :=
  match searchGroups name with
  | none => none
  | some g =>
    let registry := match g.registry with
      | some r => if r = [] then index_name else r
      | none => index_name
    let tag := match g.tag with
      | some t => if t = [] then default_tag else t
      | none => default_tag
    if g.repository = [] then none
    else
      let ns := match g.nspace with
        | some m => if m = [] then some m else some (pyStripSlash m)
        | none => none
      some ⟨registry, ns, g.repository, tag, g.digest⟩

/-- Model of the `Container.uri` property (oras/container.py, lines
77-94): `registry/namespace/repository`, then `@digest` when a digest is
present (it takes preference), else `:tag`. -/
def uri (c : Container) : List Char :=
  let base := match c.nspace with
    | some n => if n ≠ [] then n ++ '/' :: c.repository else c.repository
    | none => c.repository
  let base2 := if c.registry ≠ [] then c.registry ++ '/' :: base else base
  match c.digest with
  | some d =>
      if d ≠ [] then base2 ++ '@' :: d
      else if c.tag ≠ [] then base2 ++ ':' :: c.tag else base2
  | none => if c.tag ≠ [] then base2 ++ ':' :: c.tag else base2

/-- Model of the `Container.api_prefix` property. -/
def repoPath (c : Container) : List Char :=
  match c.nspace with
  | some n => if n ≠ [] then n ++ '/' :: c.repository else c.repository
  | none => c.repository

/-- Model of `Container.manifest_url(tag=None)` (oras/container.py, lines
62-72): `tag = tag or self.tag`, then
`{registry}/v2/{api_prefix}/manifests/{tag}`.  The parsed digest is never
consulted. -/
def manifest_url (c : Container) (tag : Option (List Char)) : List Char :=
  let t := match tag with
    | some t0 => if t0 = [] then c.tag else t0
    | none => c.tag
  c.registry ++ ("/v2/".toList) ++ repoPath c ++ ("/manifests/".toList) ++ t

/-- The matched namespace group: one or more nonempty `[^:@/]` segments,
each closed by a slash. -/
inductive SegList : List Char → Prop where
  | single (seg : List Char) : seg ≠ [] → (∀ x ∈ seg, repoChar x = true) →
      SegList (seg ++ ['/'])
  | cons (seg rest : List Char) : seg ≠ [] → (∀ x ∈ seg, repoChar x = true) →
      SegList rest → SegList (seg ++ '/' :: rest)

/-- A stripped namespace: nonempty `[^:@/]` segments joined by slashes. -/
inductive NsJoined : List Char → Prop where
  | single (seg : List Char) : seg ≠ [] → (∀ x ∈ seg, repoChar x = true) →
      NsJoined seg
  | cons (seg rest : List Char) : seg ≠ [] → (∀ x ∈ seg, repoChar x = true) →
      NsJoined rest → NsJoined (seg ++ '/' :: rest)

set_option maxRecDepth 10000

/-! ## Claim C1: the dispatcher's auth-retry flow -/

/-- C1 counterexample.  The claim says a first response whose status is
neither 401 nor 403 is returned to the caller unchanged.  The code instead
gates on the statuses 401 and 404: a 404 first response triggers the auth
consult, and when the backend signals retry the re-sent response (here a
200) is what the caller receives, not the 404. -/
theorem c1_counterexample :
    404 ≠ 401 ∧ 404 ≠ 403 ∧
    (do_request ⟨404, "original"⟩ ⟨200, "retried"⟩ ⟨500, "fallback"⟩ true false).response
      = ⟨200, "retried"⟩ ∧
    (⟨200, "retried"⟩ : Response) ≠ ⟨404, "original"⟩ := by
  refine ⟨by decide, by decide, ?_, by decide⟩
  rfl

/-- C1 amended.  For every request through `Registry.do_request`: if the
first response's status is neither 401 nor 404, it is returned unchanged
with no auth consult; otherwise `authenticate_request` is consulted exactly
once and, when it signals retry, the request is re-sent exactly once with
the updated headers; finally, if the response at that point is again a 401
or 404 and the provider's headers carry an `Authorization` entry, the
request is re-sent one more time and that third response is returned.
There is no `refresh=true` second consult of the backend. -/
theorem c1_dispatcher_amended (r1 r2 r3 : Response) (authRetry hasAuthz : Bool) :
    (r1.status_code ∉ [401, 404] → do_request r1 r2 r3 authRetry hasAuthz = ⟨r1, 1, 0⟩)
    ∧ (r1.status_code ∈ [401, 404] →
        (do_request r1 r2 r3 authRetry hasAuthz).authCalls = 1)
    ∧ (r1.status_code ∈ [401, 404] → authRetry = true → r2.status_code ∉ [401, 404] →
        do_request r1 r2 r3 authRetry hasAuthz = ⟨r2, 2, 1⟩)
    ∧ (r1.status_code ∈ [401, 404] → authRetry = true → r2.status_code ∈ [401, 404] →
        hasAuthz = true → do_request r1 r2 r3 authRetry hasAuthz = ⟨r3, 3, 1⟩)
    ∧ (r1.status_code ∈ [401, 404] → authRetry = true → r2.status_code ∈ [401, 404] →
        hasAuthz = false → do_request r1 r2 r3 authRetry hasAuthz = ⟨r2, 2, 1⟩)
    ∧ (r1.status_code ∈ [401, 404] → authRetry = false → hasAuthz = true →
        do_request r1 r2 r3 authRetry hasAuthz = ⟨r3, 2, 1⟩)
    ∧ (r1.status_code ∈ [401, 404] → authRetry = false → hasAuthz = false →
        do_request r1 r2 r3 authRetry hasAuthz = ⟨r1, 1, 1⟩) := by
  unfold do_request
  refine ⟨?_, ?_, ?_, ?_, ?_, ?_, ?_⟩ <;> intros <;> (try split_ifs) <;> simp_all <;>
    (try split_ifs) <;> simp_all

/-- C1 amended, witness: a 401 first response with the backend declining to
retry and no Authorization header is returned as-is after one auth consult. -/
theorem c1_dispatcher_amended_witness :
    do_request ⟨401, "denied"⟩ ⟨0, ""⟩ ⟨0, ""⟩ false false = ⟨⟨401, "denied"⟩, 1, 1⟩ :=
  (c1_dispatcher_amended ⟨401, "denied"⟩ ⟨0, ""⟩ ⟨0, ""⟩ false false).2.2.2.2.2.2
    (by decide) rfl rfl

/-! ## Claim C4: empty-blob upload synthesizes success -/

/-- C4.  `Registry.upload_blob`: when the layer digest is the well-known
empty-blob hash and the underlying response's status is outside
200/201/202, a synthesized fresh response with status 200 is returned;
for any other digest the underlying response is returned as-is. -/
theorem c4_upload_blob_blank (underlying : Response) (layerDigest : String) :
    (layerDigest = blank_hash → underlying.status_code ∉ [200, 201, 202] →
      upload_blob underlying layerDigest = { status_code := 200, content := "" })
    ∧ (layerDigest ≠ blank_hash → upload_blob underlying layerDigest = underlying) := by
  unfold upload_blob
  constructor
  · intro hd hs
    simp [hd, hs]
  · intro hd
    simp [hd]

/-- C4 witness: a rejected (status 405) empty blob becomes a synthesized
200 response, and a rejected non-blank digest is passed through. -/
theorem c4_upload_blob_blank_witness :
    upload_blob ⟨405, "nope"⟩ blank_hash = { status_code := 200, content := "" } ∧
    upload_blob ⟨405, "nope"⟩ "sha256:aaaa" = ⟨405, "nope"⟩ :=
  ⟨(c4_upload_blob_blank ⟨405, "nope"⟩ blank_hash).1 rfl (by decide),
   (c4_upload_blob_blank ⟨405, "nope"⟩ "sha256:aaaa").2 (by decide)⟩

/-- Unfolding equation for one iteration of the pagination loop. -/
theorem getTagsLoop_cons (p : TagPage) (rest : List TagPage) (retrieveAll : Bool)
    (n : Nat) (acc : List String) :
    getTagsLoop (p :: rest) retrieveAll n acc =
      if p.tags.length ≠ 0 ∧ (retrieveAll ∨ (acc ++ p.tags).length < n) then
        if p.hasNext then getTagsLoop rest retrieveAll n (acc ++ p.tags)
        else acc ++ p.tags
      else acc ++ p.tags := rfl

/-- With `N=None` the loop accumulates every page of a well-formed chain
of nonempty pages. -/
theorem getTagsLoop_all (pages : List TagPage) (n : Nat)
    (hchain : chainLinked pages = true) (hne : ∀ p ∈ pages, p.tags ≠ []) :
    ∀ acc, getTagsLoop pages true n acc = acc ++ (pages.map (·.tags)).flatten := by
  induction pages with
  | nil => simp [chainLinked] at hchain
  | cons p rest ih =>
    intro acc
    have hp : p.tags.length ≠ 0 := by
      simpa using hne p (by simp)
    rw [getTagsLoop_cons, if_pos ⟨hp, Or.inl rfl⟩]
    match rest, hchain with
    | [], hchain =>
      have hnx : p.hasNext = false := by simpa [chainLinked] using hchain
      simp [hnx]
    | q :: rest', hchain =>
      have hnx : p.hasNext = true := by
        simp [chainLinked] at hchain
        exact hchain.1
      have hchain' : chainLinked (q :: rest') = true := by
        simp only [chainLinked, Bool.and_eq_true] at hchain ⊢
        exact hchain.2
      have hne' : ∀ r ∈ q :: rest', r.tags ≠ [] := fun r hr => hne r (by simp [hr])
      rw [if_pos hnx, ih hchain' hne' (acc ++ p.tags)]
      simp

/-- With a limit, the loop's result is a prefix of the full concatenation
and either is the full concatenation or has reached the limit. -/
theorem getTagsLoop_limit (pages : List TagPage) (n : Nat)
    (hchain : chainLinked pages = true) (hne : ∀ p ∈ pages, p.tags ≠ []) :
    ∀ acc, (getTagsLoop pages false n acc) <+: (acc ++ (pages.map (·.tags)).flatten)
      ∧ (getTagsLoop pages false n acc = acc ++ (pages.map (·.tags)).flatten
         ∨ n ≤ (getTagsLoop pages false n acc).length) := by
  induction pages with
  | nil => simp [chainLinked] at hchain
  | cons p rest ih =>
    intro acc
    have hp : p.tags.length ≠ 0 := by
      simpa using hne p (by simp)
    by_cases hlt : (acc ++ p.tags).length < n
    · rw [getTagsLoop_cons, if_pos ⟨hp, Or.inr hlt⟩]
      match rest, hchain with
      | [], hchain =>
        have hnx : p.hasNext = false := by simpa [chainLinked] using hchain
        refine ⟨?_, Or.inl ?_⟩ <;> simp [hnx]
      | q :: rest', hchain =>
        have hnx : p.hasNext = true := by
          simp [chainLinked] at hchain
          exact hchain.1
        have hchain' : chainLinked (q :: rest') = true := by
          simp only [chainLinked, Bool.and_eq_true] at hchain ⊢
          exact hchain.2
        have hne' : ∀ r ∈ q :: rest', r.tags ≠ [] := fun r hr => hne r (by simp [hr])
        have hrec := ih hchain' hne' (acc ++ p.tags)
        rw [if_pos hnx]
        refine ⟨?_, ?_⟩
        · simpa using hrec.1
        · rcases hrec.2 with h | h
          · exact Or.inl (by simpa using h)
          · exact Or.inr h
    · have hnc : ¬(p.tags.length ≠ 0 ∧ ((false : Bool) ∨ (acc ++ p.tags).length < n)) := by
        rintro ⟨-, h | h⟩
        · exact Bool.false_ne_true h
        · exact hlt h
      have hstop : getTagsLoop (p :: rest) false n acc = acc ++ p.tags := by
        rw [getTagsLoop_cons, if_neg hnc]
      refine ⟨?_, Or.inr ?_⟩
      · rw [hstop]
        simp only [List.map_cons, List.flatten_cons, ← List.append_assoc]
        exact ⟨(rest.map (·.tags)).flatten, rfl⟩
      · rw [hstop]
        omega

/-! ## Claim C3: tag listing -/

/-- C3 counterexample.  The claim quantifies over every sequence of tag
pages; a chain containing an empty middle page (with a next link) makes
the loop stop early, so with `N=2` and two tags available in total the
result has 1 entry, not `min(2, total) = 2`, and with `N=None` the
concatenation of all pages is not returned. -/
theorem c3_counterexample :
    get_tags [⟨["a"], true⟩, ⟨[], true⟩, ⟨["b"], false⟩] (some 2) = ["a"] ∧
    (1 : Nat) ≠ min 2 ((([⟨["a"], true⟩, ⟨[], true⟩, ⟨["b"], false⟩] :
        List TagPage).map (·.tags)).flatten).length ∧
    get_tags [⟨["a"], true⟩, ⟨[], true⟩, ⟨["b"], false⟩] none = ["a"] ∧
    (["a"] : List String) ≠ (([⟨["a"], true⟩, ⟨[], true⟩, ⟨["b"], false⟩] :
        List TagPage).map (·.tags)).flatten := by
  refine ⟨rfl, by decide, rfl, by decide⟩

/-- C3 amended.  Provided every page of the (finite, linked) chain is
nonempty: with `N=None`, `get_tags` follows the next links and returns the
concatenation of all pages' tags; with `N=k` it returns exactly the first
`min(k, total)` tags, truncating to `k` if the server returned more.  (An
empty page stops the traversal early, which is what the counterexample
exhibits.) -/
theorem c3_get_tags_amended (pages : List TagPage)
    (hchain : chainLinked pages = true) (hne : ∀ p ∈ pages, p.tags ≠ []) :
    get_tags pages none = (pages.map (·.tags)).flatten
    ∧ (∀ k, get_tags pages (some k) = ((pages.map (·.tags)).flatten).take k)
    ∧ (∀ k, (get_tags pages (some k)).length
        = min k ((pages.map (·.tags)).flatten).length) := by
  have hall := getTagsLoop_all pages 0 hchain hne []
  have htake : ∀ k, get_tags pages (some k) = ((pages.map (·.tags)).flatten).take k := by
    intro k
    have hlim := getTagsLoop_limit pages k hchain hne []
    simp only [List.nil_append] at hall hlim
    show (if (getTagsLoop pages false k []).length > k
        then (getTagsLoop pages false k []).take k
        else getTagsLoop pages false k []) = _
    rcases hlim.2 with hfull | hlen
    · rw [hfull]
      by_cases hgt : ((pages.map (·.tags)).flatten).length > k
      · simp [hgt]
      · rw [if_neg hgt, List.take_of_length_le (by omega)]
    · obtain ⟨s, hs⟩ := hlim.1
      by_cases hgt : (getTagsLoop pages false k []).length > k
      · rw [if_pos hgt, ← hs, List.take_append_of_le_length (by omega)]
      · have h1 : List.take k ((getTagsLoop pages false k []) ++ s)
            = List.take k (getTagsLoop pages false k []) :=
          List.take_append_of_le_length (by omega)
        rw [if_neg hgt, ← hs, h1, List.take_of_length_le (by omega)]
  refine ⟨?_, htake, ?_⟩
  · simpa [get_tags] using hall
  · intro k
    rw [htake k, List.length_take]

/-- C3 amended, witness: a two-page chain of three tags; `N=None` returns
all three, `N=2` returns the first two. -/
theorem c3_get_tags_amended_witness :
    get_tags [⟨["a", "b"], true⟩, ⟨["c"], false⟩] none = ["a", "b", "c"] ∧
    get_tags [⟨["a", "b"], true⟩, ⟨["c"], false⟩] (some 2) = ["a", "b"] := by
  have h := c3_get_tags_amended [⟨["a", "b"], true⟩, ⟨["c"], false⟩]
    (by decide) (by decide)
  refine ⟨?_, ?_⟩
  · rw [h.1]
    decide
  · rw [h.2.1 2]
    decide

/-! ## Claim C9: credential-helper failure handling -/

/-- C9 counterexample.  The claim says each of the three failure
conditions — binary missing, non-zero exit, malformed JSON on stdout —
produces a warning and a "not found" result rather than a raised
exception.  For malformed JSON the code's unguarded `json.loads` raises. -/
theorem c9_counterexample :
    get_auth_from_creds_store "desktop" (fun _ => .success .malformed)
      = CredsOutcome.raised ∧
    CredsOutcome.raised ≠ CredsOutcome.warnedNone := by
  exact ⟨rfl, by decide⟩

/-- C9 amended.  A missing helper binary or a non-zero exit produce a
logged warning and a "not found" (None) result, so the caller falls back
to anonymous access; but malformed JSON on the helper's stdout (and a
missing `Username`/`Secret` key) propagates an exception instead. -/
theorem c9_creds_store_amended (suffix : String) (run : String → HelperRun) :
    (run ("docker-credential-" ++ suffix) = .missing →
      get_auth_from_creds_store suffix run = .warnedNone)
    ∧ (∀ e, run ("docker-credential-" ++ suffix) = .exitNonzero e →
      get_auth_from_creds_store suffix run = .warnedNone)
    ∧ (run ("docker-credential-" ++ suffix) = .success .malformed →
      get_auth_from_creds_store suffix run = .raised)
    ∧ (∀ u s, run ("docker-credential-" ++ suffix) = .success (.object (some u) (some s)) →
      get_auth_from_creds_store suffix run = .found (get_basic_auth u s)) := by
  unfold get_auth_from_creds_store
  refine ⟨?_, ?_, ?_, ?_⟩ <;> intros <;> simp_all

/-- C9 amended, witness: a helper binary missing from PATH yields the
"not found" outcome. -/
theorem c9_creds_store_amended_witness :
    get_auth_from_creds_store "osxkeychain" (fun _ => .missing) = .warnedNone :=
  (c9_creds_store_amended "osxkeychain" (fun _ => .missing)).1 rfl

/-- C10.  When the path is `None` or does not exist on disk,
`ManifestConfig` does not raise and returns the constant blank-config
descriptor — media type defaulting to the unknown-config type, size 2,
digest the well-known blank-config hash, which is indeed the SHA-256 of
the two bytes of the empty JSON object — together with a `None` path. -/
theorem c10_manifest_config_blank (path : Option String) (media_type : Option String)
    (fs : FileStats) (h : path = none ∨ fs.pathExists (path.getD "") = false) :
    ManifestConfig path media_type fs
      = (⟨pyOr media_type unknown_config_media_type, 2, blank_config_hash⟩, none)
    ∧ blank_config_hash = "sha256:" ++ String.mk (sha256hex [123, 125]) := by
  constructor
  · unfold ManifestConfig
    rcases h with h | h
    · simp [h, pyFalsy]
    · simp [h]
  · decide

/-- C10 witness: a caller-supplied path that does not exist on an empty
filesystem is replaced by the blank config descriptor and a `None` path. -/
theorem c10_manifest_config_blank_witness :
    ManifestConfig (some "/tmp/conf.json") none
      ⟨fun _ => false, fun _ => 0, fun _ => ""⟩
      = (⟨unknown_config_media_type, 2, blank_config_hash⟩, none) :=
  (c10_manifest_config_blank (some "/tmp/conf.json") none
      ⟨fun _ => false, fun _ => 0, fun _ => ""⟩ (Or.inr rfl)).1

/-- Membership in `insertByName` is membership in the inputs. -/
theorem mem_insertByName (x y : String × List TarEntry)
    (l : List (String × List TarEntry)) :
    y ∈ insertByName x l ↔ y = x ∨ y ∈ l := by
  induction l with
  | nil => simp [insertByName]
  | cons z zs ih =>
    by_cases h : x.1 ≤ z.1
    · simp [insertByName, h]
    · simp only [insertByName, if_neg h, List.mem_cons, ih]
      tauto

/-- Sorting preserves membership. -/
theorem mem_sortByName (y : String × List TarEntry)
    (l : List (String × List TarEntry)) :
    y ∈ sortByName l ↔ y ∈ l := by
  induction l with
  | nil => simp [sortByName]
  | cons z zs ih => simp [sortByName, mem_insertByName, ih]

/-- Every element of `tarAddChildren` is the archive of one child. -/
theorem mem_tarAddChildren (arc : String) (cs : List FileTree)
    (p : String × List TarEntry) (hp : p ∈ tarAddChildren arc cs) :
    ∃ c ∈ cs, p = (c.name, tarAdd (arc ++ "/" ++ c.name) c) := by
  induction cs with
  | nil => simp [tarAddChildren] at hp
  | cons c cs' ih =>
    simp only [tarAddChildren, List.mem_cons] at hp
    rcases hp with hp | hp
    · exact ⟨c, by simp, hp⟩
    · obtain ⟨c', hc', he⟩ := ih hp
      exact ⟨c', by simp [hc'], he⟩

/-- Every entry emitted by `tarAdd` has had its mtime zeroed by `reset`. -/
theorem tarAdd_mtime (t : FileTree) (arc : String) (e : TarEntry)
    (he : e ∈ tarAdd arc t) : e.mtime = 0 := by
  match t with
  | .file n meta content =>
    simp only [tarAdd, List.mem_singleton] at he
    subst he
    rfl
  | .dir n meta children =>
    simp only [tarAdd, List.mem_cons] at he
    rcases he with he | he
    · subst he
      rfl
    · rw [List.mem_flatMap] at he
      obtain ⟨p, hp, hep⟩ := he
      rw [mem_sortByName] at hp
      obtain ⟨c, hc, hpc⟩ := mem_tarAddChildren arc children p hp
      subst hpc
      have : sizeOf c < sizeOf (FileTree.dir n meta children) := by
        have := List.sizeOf_lt_of_mem hc
        simp only [FileTree.dir.sizeOf_spec]
        omega
      exact tarAdd_mtime c (arc ++ "/" ++ c.name) e hep
termination_by sizeOf t

/-! ## Claim C8: deterministic archives -/

/-- C8 counterexample.  The claim says every tar entry's owner/group are
zeroed.  The `reset` filter only zeroes mtime: archiving a file owned by
uid/gid 1000 keeps that ownership in the entry. -/
theorem c8_counterexample :
    (make_targz (.file "data.txt" ⟨5, 1000, 1000, "user", "user", 420⟩ [1, 2])).entries
      = [⟨"data.txt", 0, 1000, 1000, "user", "user", 420, false, [1, 2]⟩] ∧
    (1000 : Nat) ≠ 0 := by
  exact ⟨rfl, by decide⟩

/-- C8 amended.  `make_targz` is deterministic — in this pure model the
archive is a function of the directory tree alone, with the gzip header
timestamp fixed to zero, every tar entry's mtime zeroed by the `reset`
filter, and children iterated in sorted directory order — but owner,
group, names and mode are carried over from the filesystem metadata
unchanged (not zeroed), as the first entry of the archive shows. -/
theorem c8_make_targz_amended (t : FileTree) :
    (make_targz t).gzipMtime = 0
    ∧ (∀ e ∈ (make_targz t).entries, e.mtime = 0)
    ∧ (make_targz t).entries.head?
        = some (reset (entryOf t.name t.isDir t.meta t.content)) := by
  refine ⟨rfl, fun e he => tarAdd_mtime t t.name e he, ?_⟩
  match t with
  | .file n meta content => rfl
  | .dir n meta children => rfl

/-- The common prefix of a list with an extension of itself is the list. -/
theorem commonPref_eq_left (d t : List Char) (h : d <+: t) : commonPref d t = d := by
  induction d generalizing t with
  | nil =>
    match t with
    | [] => rfl
    | c :: cs => rfl
  | cons c cs ih =>
    obtain ⟨s, hs⟩ := h
    subst hs
    show (if c = c then c :: commonPref cs (cs ++ s) else []) = c :: cs
    rw [if_pos rfl, ih (cs ++ s) ⟨s, rfl⟩]

/-- True containment implies the code's string-prefix check passes. -/
theorem containedWithin_check (cwd outdir m : List Char)
    (h : containedWithin cwd outdir m) :
    is_within_directory cwd outdir (pathJoin outdir m) = true := by
  unfold is_within_directory
  rcases h with h | h
  · simp only [h]
    rw [commonPref_eq_left _ _ (List.prefix_refl _)]
    simp
  · have hpre : abspath cwd outdir <+: abspath cwd (pathJoin outdir m) := by
      refine List.IsPrefix.trans ?_ h
      exact ⟨_, rfl⟩
    rw [decide_eq_true_eq, commonPref_eq_left _ _ hpre]

/-! ## Claim C6: tar extraction path-traversal check -/

/-- C6 counterexample.  The claim says a member whose destination is not
contained within `outdir` makes extraction fail.  The code's check is a
string-prefix comparison, so the member `../outer` of `/tmp/out` — whose
destination `/tmp/outer` is a sibling, not contained — passes the check
and is extracted. -/
theorem c6_counterexample :
    extract_targz "/".toList ["../outer".toList] "/tmp/out".toList
      = .ok ["/tmp/out/../outer".toList]
    ∧ abspath "/".toList "/tmp/out/../outer".toList = "/tmp/outer".toList
    ∧ ¬ containedWithin "/".toList "/tmp/out".toList "../outer".toList := by
  refine ⟨rfl, by decide, ?_⟩
  rw [containedWithin]
  decide

/-- C6 amended.  `extract_targz` checks every member before extracting
any: if some member's destination absolute path does not have `outdir`'s
absolute path as a string prefix (`os.path.commonprefix`), it raises the
path-traversal error and extracts nothing; otherwise all members are
extracted to `outdir` joined with their names.  Genuinely contained
destinations always pass the check, but the string-prefix test also
admits sibling paths that merely extend `outdir`'s name. -/
theorem c6_extract_targz_amended (cwd outdir : List Char)
    (members : List (List Char)) :
    ((∀ m ∈ members, is_within_directory cwd outdir (pathJoin outdir m) = true) →
      extract_targz cwd members outdir = .ok (members.map (fun m => pathJoin outdir m)))
    ∧ ((∃ m ∈ members, is_within_directory cwd outdir (pathJoin outdir m) = false) →
      extract_targz cwd members outdir = .error "Attempted Path Traversal in Tar File")
    ∧ ((∀ m ∈ members, containedWithin cwd outdir m) →
      extract_targz cwd members outdir = .ok (members.map (fun m => pathJoin outdir m))) := by
  refine ⟨?_, ?_, ?_⟩
  · intro h
    unfold extract_targz
    rw [if_pos (by simpa [List.all_eq_true] using h)]
  · rintro ⟨m, hm, hfail⟩
    unfold extract_targz
    rw [if_neg]
    intro hall
    rw [List.all_eq_true] at hall
    have := hall m hm
    simp [hfail] at this
  · intro h
    unfold extract_targz
    rw [if_pos]
    rw [List.all_eq_true]
    exact fun m hm => containedWithin_check cwd outdir m (h m hm)

/-- C6 amended, witness: two genuinely contained members extract cleanly. -/
theorem c6_extract_targz_amended_witness :
    extract_targz "/".toList ["a.txt".toList, "sub/b.txt".toList] "/tmp/out".toList
      = .ok ["/tmp/out/a.txt".toList, "/tmp/out/sub/b.txt".toList] := by
  have h := (c6_extract_targz_amended "/".toList "/tmp/out".toList
    ["a.txt".toList, "sub/b.txt".toList]).2.2
  rw [h]
  · rfl
  · intro m hm
    simp only [List.mem_cons, List.not_mem_nil, or_false] at hm
    rcases hm with hm | hm <;> subst hm <;> rw [containedWithin] <;> decide

/-- `appendNew` extends the accumulator. -/
theorem appendNew_pref (c : List String) (d : String) : c <+: appendNew c d := by
  unfold appendNew
  split
  · exact List.prefix_refl c
  · exact ⟨[d], rfl⟩

/-- Folding `appendNew` over the layers extends the accumulator. -/
theorem foldl_appendNew_pref (ls : List String) (c : List String) :
    c <+: ls.foldl appendNew c := by
  induction ls generalizing c with
  | nil => exact List.prefix_refl c
  | cons x xs ih => exact (appendNew_pref c x).trans (ih (appendNew c x))

/-- Membership after `appendNew`. -/
theorem mem_appendNew (c : List String) (d x : String) :
    x ∈ appendNew c d ↔ x = d ∨ x ∈ c := by
  unfold appendNew
  split
  · next h => constructor
              · exact fun hx => Or.inr hx
              · rintro (rfl | hx)
                · exact h
                · exact hx
  · simp [or_comm]

/-- The appended digest is always a member. -/
theorem mem_appendNew_self (c : List String) (d : String) : d ∈ appendNew c d :=
  (mem_appendNew c d d).2 (Or.inl rfl)

/-- Membership after folding `appendNew` over the layers. -/
theorem mem_foldl_appendNew (ls : List String) (c : List String) (x : String) :
    x ∈ ls.foldl appendNew c ↔ x ∈ c ∨ x ∈ ls := by
  induction ls generalizing c with
  | nil => simp
  | cons y ys ih =>
    simp only [List.foldl_cons, ih, mem_appendNew, List.mem_cons]
    tauto

/-- `appendNew` preserves duplicate-freedom. -/
theorem appendNew_nodup (c : List String) (d : String) (h : c.Nodup) :
    (appendNew c d).Nodup := by
  unfold appendNew
  split
  · exact h
  · next hd =>
      rw [← List.concat_eq_append]
      exact List.Nodup.concat hd h

/-- The layer fold preserves duplicate-freedom. -/
theorem foldl_appendNew_nodup (ls : List String) (c : List String) (h : c.Nodup) :
    (ls.foldl appendNew c).Nodup := by
  induction ls generalizing c with
  | nil => exact h
  | cons x xs ih => exact ih (appendNew c x) (appendNew_nodup c x h)

/-- `configStep` extends the accumulator. -/
theorem configStep_pref (co : Option String) (c1 : List String) :
    c1 <+: configStep co c1 := by
  cases co with
  | none => exact List.prefix_refl _
  | some cd =>
    show c1 <+: (if cd ≠ "" then appendNew c1 cd else c1)
    split
    · exact appendNew_pref c1 cd
    · exact List.prefix_refl _

/-- `configStep` preserves duplicate-freedom. -/
theorem configStep_nodup (co : Option String) (c1 : List String) (h : c1.Nodup) :
    (configStep co c1).Nodup := by
  cases co with
  | none => exact h
  | some cd =>
    show (if cd ≠ "" then appendNew c1 cd else c1).Nodup
    split
    · exact appendNew_nodup c1 cd h
    · exact h

/-- Membership after `configStep`. -/
theorem mem_configStep (co : Option String) (c1 : List String) (x : String) :
    x ∈ configStep co c1 ↔ x ∈ c1 ∨ (co = some x ∧ x ≠ "") := by
  cases co with
  | none => simp [configStep]
  | some cd =>
    show (x ∈ if cd ≠ "" then appendNew c1 cd else c1) ↔ x ∈ c1 ∨ (some cd = some x ∧ x ≠ "")
    split
    · next hcd =>
      rw [mem_appendNew]
      constructor
      · rintro (rfl | hx)
        · exact Or.inr ⟨rfl, hcd⟩
        · exact Or.inl hx
      · rintro (hx | ⟨hcd2, -⟩)
        · exact Or.inr hx
        · cases hcd2
          exact Or.inl rfl
    · next hcd =>
      simp only [ne_eq, not_not] at hcd
      subst hcd
      constructor
      · exact fun hx => Or.inl hx
      · rintro (hx | ⟨hcd2, hne⟩)
        · exact hx
        · cases hcd2
          exact absurd rfl hne

/-- `imageStep` extends the accumulator. -/
theorem imageStep_pref (ls : List String) (co : Option String) (d : String)
    (c : List String) : c <+: imageStep ls co d c :=
  ((foldl_appendNew_pref ls c).trans (configStep_pref co _)).trans
    (appendNew_pref _ d)

/-- `imageStep` preserves duplicate-freedom. -/
theorem imageStep_nodup (ls : List String) (co : Option String) (d : String)
    (c : List String) (h : c.Nodup) : (imageStep ls co d c).Nodup :=
  appendNew_nodup _ d (configStep_nodup co _ (foldl_appendNew_nodup ls c h))

/-- A successful traversal call extends its accumulator. -/
theorem processManifest_pref (fuel : Nat) (store : Store) :
    ∀ (d : String) (c l : List String),
      processManifest fuel store d c = some l → c <+: l := by
  induction fuel with
  | zero =>
    intro d c l h
    simp [processManifest] at h
  | succ fuel ih =>
    have aux : ∀ (subs : List String) (c c' : List String),
        List.foldlM (fun acc e => processManifest fuel store e acc) c subs = some c' →
        c <+: c' := by
      intro subs
      induction subs with
      | nil =>
        intro c c' h
        simp only [List.foldlM_nil] at h
        cases h
        exact List.prefix_refl _
      | cons e es ihs =>
        intro c c' h
        rw [List.foldlM_cons] at h
        cases hpm : processManifest fuel store e c with
        | none => rw [hpm] at h; simp at h
        | some c1 =>
          rw [hpm] at h
          exact (ih e c c1 hpm).trans (ihs c1 c' h)
    intro d c l h
    simp only [processManifest] at h
    split at h
    · exact absurd h (by simp)
    · next ls co heq =>
        cases h
        exact imageStep_pref ls co d c
    · next subs heq =>
        cases hf : List.foldlM (fun acc e => processManifest fuel store e acc) c subs with
        | none => rw [hf] at h; simp at h
        | some c' =>
          rw [hf] at h
          simp only [Option.map] at h
          cases h
          exact (aux subs c c' hf).trans (appendNew_pref c' d)
    · exact absurd h (by simp)

/-- The sub-manifest fold extends its accumulator. -/
theorem foldlM_pref (fuel : Nat) (store : Store) (subs : List String) :
    ∀ (c c' : List String),
      List.foldlM (fun acc e => processManifest fuel store e acc) c subs = some c' →
      c <+: c' := by
  induction subs with
  | nil =>
    intro c c' h
    simp only [List.foldlM_nil] at h
    cases h
    exact List.prefix_refl _
  | cons e es ihs =>
    intro c c' h
    rw [List.foldlM_cons] at h
    cases hpm : processManifest fuel store e c with
    | none => rw [hpm] at h; simp at h
    | some c1 =>
      rw [hpm] at h
      exact (processManifest_pref fuel store e c c1 hpm).trans (ihs c1 c' h)

/-- A successful traversal keeps the collected list duplicate-free. -/
theorem processManifest_nodup (fuel : Nat) (store : Store) :
    ∀ (d : String) (c l : List String),
      processManifest fuel store d c = some l → c.Nodup → l.Nodup := by
  induction fuel with
  | zero =>
    intro d c l h
    simp [processManifest] at h
  | succ fuel ih =>
    have aux : ∀ (subs : List String) (c c' : List String),
        List.foldlM (fun acc e => processManifest fuel store e acc) c subs = some c' →
        c.Nodup → c'.Nodup := by
      intro subs
      induction subs with
      | nil =>
        intro c c' h hc
        simp only [List.foldlM_nil] at h
        cases h
        exact hc
      | cons e es ihs =>
        intro c c' h hc
        rw [List.foldlM_cons] at h
        cases hpm : processManifest fuel store e c with
        | none => rw [hpm] at h; simp at h
        | some c1 =>
          rw [hpm] at h
          exact ihs c1 c' h (ih e c c1 hpm hc)
    intro d c l h hc
    simp only [processManifest] at h
    split at h
    · exact absurd h (by simp)
    · next ls co heq =>
        cases h
        exact imageStep_nodup ls co d c hc
    · next subs heq =>
        cases hf : List.foldlM (fun acc e => processManifest fuel store e acc) c subs with
        | none => rw [hf] at h; simp at h
        | some c' =>
          rw [hf] at h
          simp only [Option.map] at h
          cases h
          exact appendNew_nodup c' d (aux subs c c' hf hc)
    · exact absurd h (by simp)

/-- A manifest's own digest is collected by `imageStep`. -/
theorem mem_imageStep_self (ls : List String) (co : Option String) (d : String)
    (c : List String) : d ∈ imageStep ls co d c :=
  mem_appendNew_self _ d

/-- Every layer digest is collected by `imageStep`. -/
theorem mem_imageStep_layer (ls : List String) (co : Option String) (d : String)
    (c : List String) (x : String) (hx : x ∈ ls) : x ∈ imageStep ls co d c :=
  (appendNew_pref _ d).subset
    ((configStep_pref co _).subset ((mem_foldl_appendNew ls c x).2 (Or.inr hx)))

/-- A present, truthy config digest is collected by `imageStep`. -/
theorem mem_imageStep_config (ls : List String) (cd d : String) (c : List String)
    (hne : cd ≠ "") : cd ∈ imageStep ls (some cd) d c :=
  (appendNew_pref _ d).subset ((mem_configStep (some cd) _ cd).2 (Or.inr ⟨rfl, hne⟩))

/-- Everything a reached manifest contributes is in the final list. -/
theorem processManifest_reaches (fuel : Nat) (store : Store) :
    ∀ (d : String) (c l : List String) (r : String),
      processManifest fuel store d c = some l → Reaches store d r →
      r ∈ l ∧ (∀ ls co, lookupBlob store r = some (Blob.image ls co) →
        (∀ x ∈ ls, x ∈ l) ∧ (∀ cd, co = some cd → cd ≠ "" → cd ∈ l)) := by
  induction fuel with
  | zero =>
    intro d c l r h
    simp [processManifest] at h
  | succ fuel ih =>
    have aux : ∀ (subs : List String) (c c' : List String),
        List.foldlM (fun acc e => processManifest fuel store e acc) c subs = some c' →
        ∀ e ∈ subs, ∀ r, Reaches store e r →
          r ∈ c' ∧ (∀ ls co, lookupBlob store r = some (Blob.image ls co) →
            (∀ x ∈ ls, x ∈ c') ∧ (∀ cd, co = some cd → cd ≠ "" → cd ∈ c')) := by
      intro subs
      induction subs with
      | nil =>
        intro c c' h e he
        simp at he
      | cons e0 es ihs =>
        intro c c' h e he r hr
        rw [List.foldlM_cons] at h
        cases hpm : processManifest fuel store e0 c with
        | none => rw [hpm] at h; simp at h
        | some c1 =>
          rw [hpm] at h
          have hpre : c1 <+: c' := foldlM_pref fuel store es c1 c' h
          rcases List.mem_cons.mp he with rfl | he'
          · have hres := ih e c c1 r hpm hr
            refine ⟨hpre.subset hres.1, fun ls co hlk => ?_⟩
            have h2 := hres.2 ls co hlk
            exact ⟨fun x hx => hpre.subset (h2.1 x hx),
                   fun cd hcd hne => hpre.subset (h2.2 cd hcd hne)⟩
          · exact ihs c1 c' h e he' r hr
    intro d c l r h hr
    simp only [processManifest] at h
    split at h
    · exact absurd h (by simp)
    · next ls co heq =>
        cases h
        cases hr with
        | refl =>
          refine ⟨mem_imageStep_self ls co d c, fun ls' co' hlk => ?_⟩
          rw [heq] at hlk
          cases hlk
          constructor
          · exact fun x hx => mem_imageStep_layer ls co d c x hx
          · rintro cd rfl hne
            exact mem_imageStep_config ls cd d c hne
        | sub _ subs e r hlk2 he hre =>
          rw [heq] at hlk2
          cases hlk2
    · next subs heq =>
        cases hf : List.foldlM (fun acc e => processManifest fuel store e acc) c subs with
        | none => rw [hf] at h; simp at h
        | some c' =>
          rw [hf] at h
          simp only [Option.map] at h
          cases h
          cases hr with
          | refl =>
            refine ⟨mem_appendNew_self c' d, fun ls co hlk => ?_⟩
            rw [heq] at hlk
            cases hlk
          | sub _ subs' e r hlk2 he hre =>
            rw [heq] at hlk2
            cases hlk2
            have hfacts := aux subs c c' hf e he r hre
            refine ⟨(appendNew_pref c' d).subset hfacts.1, fun ls co hlk => ?_⟩
            have h2 := hfacts.2 ls co hlk
            exact ⟨fun x hx => (appendNew_pref c' d).subset (h2.1 x hx),
                   fun cd hcd hne => (appendNew_pref c' d).subset (h2.2 cd hcd hne)⟩
    · exact absurd h (by simp)

/-- Standalone form of the fold part of `processManifest_reaches`. -/
theorem foldlM_reaches (fuel : Nat) (store : Store) (subs : List String) :
    ∀ (c c' : List String),
      List.foldlM (fun acc e => processManifest fuel store e acc) c subs = some c' →
      ∀ e ∈ subs, ∀ r, Reaches store e r → r ∈ c' := by
  induction subs with
  | nil =>
    intro c c' h e he
    simp at he
  | cons e0 es ihs =>
    intro c c' h e he r hr
    rw [List.foldlM_cons] at h
    cases hpm : processManifest fuel store e0 c with
    | none => rw [hpm] at h; simp at h
    | some c1 =>
      rw [hpm] at h
      rcases List.mem_cons.mp he with rfl | he'
      · exact (foldlM_pref fuel store es c1 c' h).subset
          (processManifest_reaches fuel store e c c1 r hpm hr).1
      · exact ihs c1 c' h e he' r hr

/-- A member of the prefix comes strictly before a non-member. -/
theorem indexOf_append_lt (x : String) (c t : List String) (hx : x ∈ c) :
    (c ++ t).indexOf x < c.length := by
  induction c with
  | nil => simp at hx
  | cons a c' ih =>
    by_cases hax : a = x
    · subst hax
      simp [List.indexOf_cons]
    · have hx' : x ∈ c' := by
        rcases List.mem_cons.mp hx with rfl | hmem
        · exact absurd rfl hax
        · exact hmem
      have hbeq : (a == x) = false := beq_eq_false_iff_ne.2 hax
      rw [List.cons_append, List.indexOf_cons, hbeq, cond_false]
      have := ih hx'
      simp only [List.length_cons]
      omega

/-- A non-member of the prefix is found at or after its length. -/
theorem length_le_indexOf_append (y : String) (c t : List String) (hy : y ∉ c) :
    c.length ≤ (c ++ t).indexOf y := by
  induction c with
  | nil => simp
  | cons a c' ih =>
    have hay : a ≠ y := fun h => hy (h ▸ List.mem_cons_self a c')
    have hy' : y ∉ c' := fun h => hy (List.mem_cons_of_mem a h)
    have hbeq : (a == y) = false := beq_eq_false_iff_ne.2 hay
    rw [List.cons_append, List.indexOf_cons, hbeq, cond_false]
    have := ih hy'
    simp only [List.length_cons]
    omega

/-- In any extension of a collected list, members of the collected part
come strictly before digests collected later. -/
theorem indexOf_lt_of_pref (c l : List String) (x y : String) (hp : c <+: l)
    (hx : x ∈ c) (hy : y ∉ c) : l.indexOf x < l.indexOf y := by
  obtain ⟨t, rfl⟩ := hp
  exact lt_of_lt_of_le (indexOf_append_lt x c t hx) (length_le_indexOf_append y c t hy)

/-- Layers first collected at a manifest precede its config digest when
that digest is itself first collected there. -/
theorem imageStep_layer_before_config (ls : List String) (cd d : String)
    (c : List String) (x : String) (hx : x ∈ ls) (hcdl : cd ∉ ls) (hcdc : cd ∉ c)
    (_hne : cd ≠ "") :
    (imageStep ls (some cd) d c).indexOf x < (imageStep ls (some cd) d c).indexOf cd := by
  have hx1 : x ∈ ls.foldl appendNew c := (mem_foldl_appendNew ls c x).2 (Or.inr hx)
  have hcd1 : cd ∉ ls.foldl appendNew c := by
    intro hmem
    rcases (mem_foldl_appendNew ls c cd).1 hmem with hmem | hmem
    · exact hcdc hmem
    · exact hcdl hmem
  exact indexOf_lt_of_pref _ _ x cd
    ((configStep_pref (some cd) _).trans (appendNew_pref _ d)) hx1 hcd1

/-- Layers precede the manifest's own digest when that digest is first
collected at this manifest. -/
theorem imageStep_layer_before_self (ls : List String) (co : Option String)
    (d : String) (c : List String) (x : String) (hx : x ∈ ls) (hdc : d ∉ c)
    (hdl : d ∉ ls) (hdco : co ≠ some d) :
    (imageStep ls co d c).indexOf x < (imageStep ls co d c).indexOf d := by
  have hx2 : x ∈ configStep co (ls.foldl appendNew c) :=
    (configStep_pref co _).subset ((mem_foldl_appendNew ls c x).2 (Or.inr hx))
  have hd2 : d ∉ configStep co (ls.foldl appendNew c) := by
    intro hmem
    rcases (mem_configStep co _ d).1 hmem with hmem | ⟨hco, -⟩
    · rcases (mem_foldl_appendNew ls c d).1 hmem with hmem | hmem
      · exact hdc hmem
      · exact hdl hmem
    · exact hdco hco
  exact indexOf_lt_of_pref _ _ x d (appendNew_pref _ d) hx2 hd2

/-- The config digest precedes the manifest's own digest when the latter
is first collected at this manifest. -/
theorem imageStep_config_before_self (ls : List String) (cd d : String)
    (c : List String) (hne : cd ≠ "") (hdc : d ∉ c) (hdl : d ∉ ls) (hdcd : d ≠ cd) :
    (imageStep ls (some cd) d c).indexOf cd < (imageStep ls (some cd) d c).indexOf d := by
  have hcd2 : cd ∈ configStep (some cd) (ls.foldl appendNew c) :=
    (mem_configStep (some cd) _ cd).2 (Or.inr ⟨rfl, hne⟩)
  have hd2 : d ∉ configStep (some cd) (ls.foldl appendNew c) := by
    intro hmem
    rcases (mem_configStep (some cd) _ d).1 hmem with hmem | ⟨hco, -⟩
    · rcases (mem_foldl_appendNew ls c d).1 hmem with hmem | hmem
      · exact hdc hmem
      · exact hdl hmem
    · exact hdcd (by injection hco with h; exact h.symm)
  exact indexOf_lt_of_pref _ _ cd d (appendNew_pref _ d) hcd2 hd2

/-- An index's own digest is appended after all digests its sub-manifests
contribute; when it is first collected at this index it comes after every
digest reached through the sub-manifests. -/
theorem processManifest_index (fuel : Nat) (store : Store) (d : String)
    (subs : List String) (c l : List String)
    (hb : lookupBlob store d = some (Blob.index subs))
    (h : processManifest (fuel + 1) store d c = some l) :
    ∃ c', List.foldlM (fun acc e => processManifest fuel store e acc) c subs = some c'
      ∧ l = appendNew c' d
      ∧ c <+: c'
      ∧ (∀ r, (∃ e ∈ subs, Reaches store e r) → r ∈ c')
      ∧ (d ∉ c' → ∀ r, (∃ e ∈ subs, Reaches store e r) →
          l.indexOf r < l.indexOf d) := by
  simp only [processManifest, hb] at h
  cases hf : List.foldlM (fun acc e => processManifest fuel store e acc) c subs with
  | none => rw [hf] at h; simp at h
  | some c' =>
    rw [hf] at h
    simp only [Option.map] at h
    cases h
    refine ⟨c', rfl, rfl, foldlM_pref fuel store subs c c' hf, ?_, ?_⟩
    · rintro r ⟨e, he, hre⟩
      exact foldlM_reaches fuel store subs c c' hf e he r hre
    · rintro hd r ⟨e, he, hre⟩
      exact indexOf_lt_of_pref c' _ r d (appendNew_pref c' d)
        (foldlM_reaches fuel store subs c c' hf e he r hre) hd

/-! ## Claim C2: dependency-ordered blob list -/

/-- C2 counterexample.  Two image manifests sharing a config: the claim
says that for each image manifest reached, all of its layer digests appear
before its config digest.  Processing the first manifest collects the
shared config early, so the second manifest's layer lands after it. -/
theorem c2_counterexample :
    getOrderedBlobs 10
        [("sha256:iii", Blob.index ["sha256:aaa", "sha256:bbb"]),
         ("sha256:aaa", Blob.image ["sha256:l1x"] (some "sha256:ccc")),
         ("sha256:bbb", Blob.image ["sha256:l2x"] (some "sha256:ccc")),
         ("sha256:l1x", Blob.other), ("sha256:l2x", Blob.other),
         ("sha256:ccc", Blob.other)]
        [⟨"sha256:iii", some "latest"⟩] "latest"
      = some ["sha256:l1x", "sha256:ccc", "sha256:aaa",
              "sha256:l2x", "sha256:bbb", "sha256:iii"]
    ∧ lookupBlob
        [("sha256:iii", Blob.index ["sha256:aaa", "sha256:bbb"]),
         ("sha256:aaa", Blob.image ["sha256:l1x"] (some "sha256:ccc")),
         ("sha256:bbb", Blob.image ["sha256:l2x"] (some "sha256:ccc")),
         ("sha256:l1x", Blob.other), ("sha256:l2x", Blob.other),
         ("sha256:ccc", Blob.other)] "sha256:bbb"
      = some (Blob.image ["sha256:l2x"] (some "sha256:ccc"))
    ∧ (["sha256:l1x", "sha256:ccc", "sha256:aaa",
        "sha256:l2x", "sha256:bbb", "sha256:iii"] : List String).indexOf "sha256:ccc"
      < (["sha256:l1x", "sha256:ccc", "sha256:aaa",
          "sha256:l2x", "sha256:bbb", "sha256:iii"] : List String).indexOf "sha256:l2x" := by
  refine ⟨rfl, rfl, by decide⟩

/-- C2 amended.  For every layout store, index and tag for which
`get_ordered_blobs` succeeds: the list has no duplicates, so every digest
— even one reachable via several sub-manifests — appears at most once;
every manifest reachable from the tagged root appears in the list together
with all of its layer digests and its config digest; the per-manifest
ordering (layers, then config, then the manifest's own digest) holds among
the digests first collected while processing that manifest; and an index
digest first collected at that index appears after every digest reached
through its sub-manifests.  A digest already collected through an earlier
branch keeps its earlier position, which is what the counterexample
exhibits. -/
theorem c2_ordered_blobs_amended (fuel : Nat) (store : Store)
    (entries : List IndexEntry) (tag : String) (l : List String)
    (h : getOrderedBlobs fuel store entries tag = some l) :
    l.Nodup
    ∧ (∀ root, findTagDigest entries tag = some root →
        ∀ r, Reaches store root r →
          r ∈ l ∧ (∀ ls co, lookupBlob store r = some (Blob.image ls co) →
            (∀ x ∈ ls, x ∈ l) ∧ (∀ cd, co = some cd → cd ≠ "" → cd ∈ l)))
    ∧ (∀ ls cd d c x, x ∈ ls → cd ∉ ls → cd ∉ c → cd ≠ "" →
        (imageStep ls (some cd) d c).indexOf x < (imageStep ls (some cd) d c).indexOf cd)
    ∧ (∀ ls co d c x, x ∈ ls → d ∉ c → d ∉ ls → co ≠ some d →
        (imageStep ls co d c).indexOf x < (imageStep ls co d c).indexOf d)
    ∧ (∀ ls cd d c, cd ≠ "" → d ∉ c → d ∉ ls → d ≠ cd →
        (imageStep ls (some cd) d c).indexOf cd < (imageStep ls (some cd) d c).indexOf d)
    ∧ (∀ f d subs c l2, lookupBlob store d = some (Blob.index subs) →
        processManifest (f + 1) store d c = some l2 →
        ∃ c', c <+: c' ∧ l2 = appendNew c' d
          ∧ (∀ r, (∃ e ∈ subs, Reaches store e r) → r ∈ c')
          ∧ (d ∉ c' → ∀ r, (∃ e ∈ subs, Reaches store e r) →
              l2.indexOf r < l2.indexOf d)) := by
  have hroot : ∃ root, findTagDigest entries tag = some root
      ∧ processManifest fuel store root [] = some l := by
    unfold getOrderedBlobs at h
    cases hr : findTagDigest entries tag with
    | none => rw [hr] at h; simp at h
    | some root =>
      rw [hr] at h
      exact ⟨root, rfl, h⟩
  obtain ⟨root, hr, hpm⟩ := hroot
  refine ⟨processManifest_nodup fuel store root [] l hpm (List.nodup_nil), ?_, ?_, ?_, ?_, ?_⟩
  · intro root' hr' r hreach
    rw [hr] at hr'
    cases hr'
    exact processManifest_reaches fuel store root [] l r hpm hreach
  · exact fun ls cd d c x hx h1 h2 h3 => imageStep_layer_before_config ls cd d c x hx h1 h2 h3
  · exact fun ls co d c x hx h1 h2 h3 => imageStep_layer_before_self ls co d c x hx h1 h2 h3
  · exact fun ls cd d c h1 h2 h3 h4 => imageStep_config_before_self ls cd d c h1 h2 h3 h4
  · intro f d subs c l2 hb h2
    obtain ⟨c', -, hl2, hpre, hmem, hord⟩ := processManifest_index f store d subs c l2 hb h2
    exact ⟨c', hpre, hl2, hmem, hord⟩

/-- C2 amended, witness: a single-manifest layout lists the layer, then
the config, then the manifest, and the list is duplicate-free. -/
theorem c2_ordered_blobs_amended_witness :
    getOrderedBlobs 3
        [("sha256:mmm", Blob.image ["sha256:lll"] (some "sha256:ccc")),
         ("sha256:lll", Blob.other), ("sha256:ccc", Blob.other)]
        [⟨"sha256:mmm", some "latest"⟩] "latest"
      = some ["sha256:lll", "sha256:ccc", "sha256:mmm"]
    ∧ (["sha256:lll", "sha256:ccc", "sha256:mmm"] : List String).Nodup := by
  refine ⟨rfl, ?_⟩
  exact (c2_ordered_blobs_amended 3
    [("sha256:mmm", Blob.image ["sha256:lll"] (some "sha256:ccc")),
     ("sha256:lll", Blob.other), ("sha256:ccc", Blob.other)]
    [⟨"sha256:mmm", some "latest"⟩] "latest"
    ["sha256:lll", "sha256:ccc", "sha256:mmm"] rfl).1

/-- Spec scenario 1: `ghcr.io/org/proj/repo:v1.2@sha256:abcd` parses into
its five components. -/
theorem parse_scenario_one :
    parseContainer ("ghcr.io/org/proj/repo:v1.2@sha256:abcd".toList)
      = some ⟨"ghcr.io".toList, some ("org/proj".toList), "repo".toList,
              "v1.2".toList, some ("sha256:abcd".toList)⟩ := by decide

/-! ### List helpers for the regex proofs -/

/-- First candidate wins in `findSome?`. -/
theorem findSome?_head {α β : Type} (x : α) (l : List α) (f : α → Option β) (b : β)
    (h : f x = some b) : (x :: l).findSome? f = some b := by
  simp [List.findSome?, h]

/-- Decompose a list at the end of a `takeWhile` run that stops inside it. -/
theorem takeWhile_decomp {α : Type} (p : α → Bool) (s : List α)
    (h : (s.takeWhile p).length < s.length) :
    ∃ c, p c = false
      ∧ s = s.takeWhile p ++ c :: s.drop ((s.takeWhile p).length + 1)
      ∧ (s.drop (s.takeWhile p).length).head? = some c := by
  induction s with
  | nil => simp at h
  | cons a s' ih =>
    cases hpa : p a with
    | false =>
      refine ⟨a, hpa, ?_, ?_⟩ <;> simp [List.takeWhile_cons, hpa]
    | true =>
      have htw : (a :: s').takeWhile p = a :: s'.takeWhile p := by
        simp [List.takeWhile_cons, hpa]
      have h' : (s'.takeWhile p).length < s'.length := by
        rw [htw] at h
        simpa using h
      obtain ⟨c, hc, hs, hh⟩ := ih h'
      refine ⟨c, hc, ?_, ?_⟩
      · rw [htw]
        simp only [List.length_cons, List.drop_succ_cons, List.cons_append]
        exact congrArg (a :: ·) hs
      · rw [htw]
        simpa using hh

/-- `takeWhile` over a list of class characters followed by a stopper. -/
theorem takeWhile_append_cons {α : Type} (p : α → Bool) (a : List α) (b : α)
    (t : List α) (ha : ∀ x ∈ a, p x = true) (hb : p b = false) :
    (a ++ b :: t).takeWhile p = a := by
  induction a with
  | nil => simp [List.takeWhile_cons, hb]
  | cons x xs ih =>
    have hx : p x = true := ha x (by simp)
    have hxs := ih (fun y hy => ha y (by simp [hy]))
    simp [List.takeWhile_cons, hx, hxs]

/-- `takeWhile` of a list all of whose elements satisfy the class. -/
theorem takeWhile_eq_self_of_all {α : Type} (p : α → Bool) (l : List α)
    (h : ∀ x ∈ l, p x = true) : l.takeWhile p = l := by
  induction l with
  | nil => rfl
  | cons x xs ih =>
    have hxs := ih (fun y hy => h y (by simp [hy]))
    simp [List.takeWhile_cons, h x (by simp), hxs]

/-- Dropping past a marked element. -/
theorem drop_append_cons {α : Type} (a : List α) (b : α) (t : List α) :
    (a ++ b :: t).drop (a.length + 1) = t := by
  have h : a ++ b :: t = (a ++ [b]) ++ t := by simp
  have h2 : (a ++ [b]).length = a.length + 1 := by simp
  rw [h, ← h2, List.drop_left]

/-- Dropping up to a marked element. -/
theorem drop_append_cons_head {α : Type} (a : List α) (b : α) (t : List α) :
    (a ++ b :: t).drop a.length = b :: t := by
  rw [List.drop_left]

/-- A joined namespace is nonempty. -/
theorem nsJoined_ne_nil (n : List Char) (h : NsJoined n) : n ≠ [] := by
  cases h with
  | single seg hne hall => exact hne
  | cons seg rest hne hall hrest => simp [hne]

/-- A joined namespace starts with a class character. -/
theorem nsJoined_head (n : List Char) (h : NsJoined n) :
    ∀ c, n.head? = some c → repoChar c = true := by
  cases h with
  | single seg hne hall =>
    intro c hc
    exact hall c (List.mem_of_mem_head? hc)
  | cons seg rest hne hall hrest =>
    intro c hc
    cases seg with
    | nil => exact absurd rfl hne
    | cons x seg' =>
      rw [List.cons_append, List.head?_cons] at hc
      cases hc
      exact hall c (by simp)

/-- A joined namespace ends with a class character. -/
theorem nsJoined_last (n : List Char) (h : NsJoined n) :
    ∀ c, n.getLast? = some c → repoChar c = true := by
  induction h with
  | single seg hne hall =>
    intro c hc
    exact hall c (List.mem_of_mem_getLast? hc)
  | cons seg rest hne hall hrest ih =>
    intro c hc
    have hrne : rest ≠ [] := nsJoined_ne_nil rest hrest
    rw [show seg ++ '/' :: rest = (seg ++ ['/']) ++ rest by simp,
      List.getLast?_append_of_ne_nil] at hc
    · exact ih c hc
    · exact hrne

/-- A joined namespace closed by a slash is a segment list. -/
theorem nsJoined_to_segList (n : List Char) (h : NsJoined n) : SegList (n ++ ['/']) := by
  induction h with
  | single seg hne hall => exact SegList.single seg hne hall
  | cons seg rest hne hall hrest ih =>
    rw [List.append_assoc, List.cons_append]
    exact SegList.cons seg (rest ++ ['/']) hne hall ih

/-- Stripping the closing slash of a slash-free-sandwiched list. -/
theorem pyStripSlash_sandwich (n : List Char)
    (h1 : ∀ c, n.head? = some c → c ≠ '/')
    (h2 : ∀ c, n.getLast? = some c → c ≠ '/') :
    pyStripSlash (n ++ ['/']) = n := by
  match n with
  | [] => rfl
  | a :: n' =>
    have ha : a ≠ '/' := h1 a rfl
    unfold pyStripSlash
    rw [List.cons_append, List.dropWhile_cons]
    simp only [decide_eq_true_eq, ha, if_false]
    have hrev : ((a :: n') ++ ['/']).reverse = '/' :: (a :: n').reverse := by
      simp
    rw [show (a :: (n' ++ ['/'])) = (a :: n') ++ ['/'] by simp, hrev,
      List.dropWhile_cons]
    simp only [decide_eq_true_eq, if_true]
    have hlast : ∀ c, (a :: n').reverse.head? = some c → c ≠ '/' := by
      intro c hc
      rw [List.head?_reverse] at hc
      exact h2 c hc
    have hstop : (a :: n').reverse.dropWhile (fun c => decide (c = '/')) = (a :: n').reverse := by
      match hrv : (a :: n').reverse with
      | [] => rfl
      | b :: rb =>
        have hb : b ≠ '/' := by
          apply hlast b
          rw [hrv]
          rfl
        rw [List.dropWhile_cons]
        simp [hb]
    rw [hstop, List.reverse_reverse]

/-- Every element of a `SegList` decomposes as its stripped form plus the
closing slash. -/
theorem segList_strip (m : List Char) (h : SegList m) :
    ∃ n, NsJoined n ∧ m = n ++ ['/'] ∧ pyStripSlash m = n := by
  induction h with
  | single seg hne hall =>
    refine ⟨seg, NsJoined.single seg hne hall, rfl, ?_⟩
    apply pyStripSlash_sandwich
    · intro c hc
      have := hall c (List.mem_of_mem_head? hc)
      simp [repoChar] at this
      exact this.2
    · intro c hc
      have := hall c (List.mem_of_mem_getLast? hc)
      simp [repoChar] at this
      exact this.2
  | cons seg rest hne hall hrest ih =>
    obtain ⟨n', hn', hrest_eq, hstrip⟩ := ih
    have hjoined : NsJoined (seg ++ '/' :: n') := NsJoined.cons seg n' hne hall hn'
    refine ⟨seg ++ '/' :: n', hjoined, ?_, ?_⟩
    · rw [hrest_eq]
      simp
    · rw [hrest_eq, show seg ++ '/' :: (n' ++ ['/']) = (seg ++ '/' :: n') ++ ['/'] by simp]
      apply pyStripSlash_sandwich
      · intro c hc
        have hcc := nsJoined_head _ hjoined c hc
        simp [repoChar] at hcc
        exact hcc.2
      · intro c hc
        have hcc := nsJoined_last _ hjoined c hc
        simp [repoChar] at hcc
        exact hcc.2

/-- Re-stripping the slash-closed form of a joined namespace. -/
theorem nsJoined_strip (n : List Char) (h : NsJoined n) :
    pyStripSlash (n ++ ['/']) = n := by
  apply pyStripSlash_sandwich
  · intro c hc
    have hcc := nsJoined_head n h c hc
    simp [repoChar] at hcc
    exact hcc.2
  · intro c hc
    have hcc := nsJoined_last n h c hc
    simp [repoChar] at hcc
    exact hcc.2

/-! ### What the candidate lists can produce (soundness of each group) -/

/-- A list is its `takeWhile` run plus the drop past it. -/
theorem takeWhile_append_drop_len {α : Type} (p : α → Bool) (l : List α) :
    l.takeWhile p ++ l.drop (l.takeWhile p).length = l := by
  induction l with
  | nil => rfl
  | cons a t ih =>
    cases hpa : p a with
    | false => simp [List.takeWhile_cons, hpa]
    | true => simp [List.takeWhile_cons, hpa, ih]

/-- Decompose a list at the first character after a `takeWhile` run, given
that character. -/
theorem takeWhile_head_decomp (p : Char → Bool) (s : List Char) (c : Char)
    (hhead : (s.drop (s.takeWhile p).length).head? = some c) :
    s = s.takeWhile p ++ c :: s.drop ((s.takeWhile p).length + 1) := by
  have hsplit := takeWhile_append_drop_len p s
  generalize htw : s.takeWhile p = tw at hsplit hhead ⊢
  cases hr : s.drop tw.length with
  | nil =>
    rw [hr] at hhead
    simp at hhead
  | cons c' t' =>
    rw [hr] at hhead hsplit
    simp only [List.head?_cons, Option.some.injEq] at hhead
    subst hhead
    have hd1 : s.drop (tw.length + 1) = t' := by
      rw [← hsplit, drop_append_cons]
    rw [hd1]
    exact hsplit.symm

/-- Soundness of `greedyCands` over a class run. -/
theorem greedyCands_inv (p : Char → Bool) (s : List Char)
    (pr : List Char × List Char) (h : pr ∈ greedyCands (s.takeWhile p) s) :
    pr.1 ≠ [] ∧ (∀ x ∈ pr.1, p x = true) ∧ s = pr.1 ++ pr.2 := by
  have hsplit := takeWhile_append_drop_len p s
  have hallw : ∀ x ∈ s.takeWhile p, p x = true := fun x hx => List.mem_takeWhile_imp hx
  unfold greedyCands at h
  rw [List.mem_map] at h
  obtain ⟨i, hi, heq⟩ := h
  rw [List.mem_range] at hi
  generalize htw : s.takeWhile p = tw at hsplit hallw hi heq
  have hkle : tw.length - i ≤ tw.length := by omega
  have hk1 : 1 ≤ tw.length - i := by omega
  have htake : s.take (tw.length - i) = tw.take (tw.length - i) := by
    rw [← hsplit, List.take_append_of_le_length hkle]
  subst heq
  refine ⟨?_, ?_, ?_⟩
  · rw [htake]
    intro habs
    have hlen := congrArg List.length habs
    rw [List.length_take, Nat.min_eq_left hkle] at hlen
    simp at hlen
    omega
  · intro x hx
    rw [htake] at hx
    exact hallw x (tw.take_subset _ hx)
  · exact (List.take_append_drop _ s).symm

/-- Soundness of the registry candidates. -/
theorem registryCands_inv (s : List Char) (pr : Option (List Char) × List Char)
    (h : pr ∈ registryCands s) :
    (pr.1 = none ∧ pr.2 = s) ∨
    (∃ r, pr.1 = some r ∧ registryPat r = true ∧ s = r ++ '/' :: pr.2) := by
  simp only [registryCands] at h
  split at h
  · next hc =>
    rw [Bool.and_eq_true] at hc
    simp only [List.mem_cons, List.not_mem_nil, or_false] at h
    rcases h with rfl | rfl
    · refine Or.inr ⟨_, rfl, hc.2, ?_⟩
      have hlt : ((s.takeWhile (fun c => c ≠ '/')).length) < s.length := by
        simpa using hc.1
      obtain ⟨c0, hc0, hs, hh⟩ := takeWhile_decomp (fun c => decide (c ≠ '/')) s hlt
      have hc0' : c0 = '/' := by
        rw [decide_eq_false_iff_not] at hc0
        exact not_not.mp hc0
      subst hc0'
      exact hs
    · exact Or.inl ⟨rfl, rfl⟩
  · rw [List.mem_singleton] at h
    subst h
    exact Or.inl ⟨rfl, rfl⟩

/-- Soundness of the namespace splits. -/
theorem nsSplitsF_inv (fuel : Nat) :
    ∀ (s : List Char) (pr : List Char × List Char), pr ∈ nsSplitsF fuel s →
      SegList pr.1 ∧ s = pr.1 ++ pr.2 := by
  induction fuel with
  | zero =>
    intro s pr h
    simp [nsSplitsF] at h
  | succ fuel ih =>
    intro s pr h
    simp only [nsSplitsF] at h
    split at h
    · next hc =>
      obtain ⟨hrun, hhead⟩ := hc
      have hall : ∀ x ∈ s.takeWhile repoChar, repoChar x = true :=
        fun x hx => List.mem_takeWhile_imp hx
      have hs := takeWhile_head_decomp repoChar s '/' hhead
      generalize htw : s.takeWhile repoChar = run at hrun hall hs h
      generalize hdr : s.drop (run.length + 1) = rest at hs h
      have hne : run ≠ [] := by
        intro habs
        rw [habs] at hrun
        simp at hrun
      rcases List.mem_cons.mp h with rfl | h'
      · refine ⟨SegList.single run hne hall, ?_⟩
        rw [hs]
        simp
      · rw [List.mem_map] at h'
        obtain ⟨pr', hpr', heq⟩ := h'
        obtain ⟨hseg', hrest'⟩ := ih rest pr' hpr'
        subst heq
        refine ⟨SegList.cons run pr'.1 hne hall hseg', ?_⟩
        rw [hs, hrest']
        simp
    · simp at h

/-- Soundness of the namespace candidates. -/
theorem nsCands_inv (s : List Char) (pr : Option (List Char) × List Char)
    (h : pr ∈ nsCands s) :
    (pr.1 = none ∧ pr.2 = s) ∨
    (∃ m, pr.1 = some m ∧ SegList m ∧ s = m ++ pr.2) := by
  unfold nsCands at h
  rw [List.mem_append] at h
  rcases h with h | h
  · rw [List.mem_map] at h
    obtain ⟨pr', hpr', heq⟩ := h
    rw [List.mem_reverse] at hpr'
    obtain ⟨hseg, hs⟩ := nsSplitsF_inv s.length s pr' hpr'
    subst heq
    exact Or.inr ⟨pr'.1, rfl, hseg, hs⟩
  · rw [List.mem_singleton] at h
    subst h
    exact Or.inl ⟨rfl, rfl⟩

/-- Soundness of the repository candidates. -/
theorem repoCands_inv (s : List Char) (pr : List Char × List Char)
    (h : pr ∈ repoCands s) :
    pr.1 ≠ [] ∧ (∀ x ∈ pr.1, repoChar x = true) ∧ s = pr.1 ++ pr.2 :=
  greedyCands_inv repoChar s pr h

/-- Soundness of the tag candidates. -/
theorem tagCands_inv (s : List Char) (pr : Option (List Char) × List Char)
    (h : pr ∈ tagCands s) :
    (pr.1 = none ∧ pr.2 = s) ∨
    (∃ t, pr.1 = some t ∧ t ≠ [] ∧ (∀ x ∈ t, tagChar x = true)
      ∧ s = ':' :: (t ++ pr.2)) := by
  cases s with
  | nil =>
    simp only [tagCands, List.nil_append] at h
    rw [List.mem_singleton] at h
    subst h
    exact Or.inl ⟨rfl, rfl⟩
  | cons c rest =>
    simp only [tagCands] at h
    rw [List.mem_append] at h
    rcases h with h | h
    · split at h
      · next hc =>
        subst hc
        rw [List.mem_map] at h
        obtain ⟨pr', hpr', heq⟩ := h
        obtain ⟨hne, hall, hrest⟩ := greedyCands_inv tagChar rest pr' hpr'
        subst heq
        exact Or.inr ⟨pr'.1, rfl, hne, hall, by rw [← hrest]⟩
      · simp at h
    · rw [List.mem_singleton] at h
      subst h
      exact Or.inl ⟨rfl, rfl⟩

/-- Soundness of the digest candidates. -/
theorem digestCands_inv (s : List Char) (pr : Option (List Char) × List Char)
    (h : pr ∈ digestCands s) :
    (pr.1 = none ∧ pr.2 = s) ∨
    (∃ d, pr.1 = some d ∧ d ≠ [] ∧ (∀ x ∈ d, dotAny x = true)
      ∧ s = '@' :: (d ++ pr.2)) := by
  cases s with
  | nil =>
    simp only [digestCands, List.nil_append] at h
    rw [List.mem_singleton] at h
    subst h
    exact Or.inl ⟨rfl, rfl⟩
  | cons c rest =>
    simp only [digestCands] at h
    rw [List.mem_append] at h
    rcases h with h | h
    · split at h
      · next hc =>
        subst hc
        rw [List.mem_map] at h
        obtain ⟨pr', hpr', heq⟩ := h
        obtain ⟨hne, hall, hrest⟩ := greedyCands_inv dotAny rest pr' hpr'
        subst heq
        exact Or.inr ⟨pr'.1, rfl, hne, hall, by rw [← hrest]⟩
      · simp at h
    · rw [List.mem_singleton] at h
      subst h
      exact Or.inl ⟨rfl, rfl⟩

/-- Witness extraction for `findSome?`. -/
theorem exists_of_findSome? {α β : Type} (l : List α) (f : α → Option β) (b : β)
    (h : l.findSome? f = some b) : ∃ a ∈ l, f a = some b := by
  induction l with
  | nil => simp [List.findSome?] at h
  | cons x xs ih =>
    rw [show (x :: xs).findSome? f
      = (match f x with | some b0 => some b0 | none => xs.findSome? f) from rfl] at h
    cases hfx : f x with
    | some b' =>
      rw [hfx] at h
      cases h
      exact ⟨x, by simp, hfx⟩
    | none =>
      rw [hfx] at h
      obtain ⟨a, ha, hfa⟩ := ih h
      exact ⟨a, by simp [ha], hfa⟩

/-- A registry match is nonempty. -/
theorem registryPat_ne_nil (r : List Char) (h : registryPat r = true) : r ≠ [] := by
  intro habs
  subst habs
  simp [registryPat] at h

/-- Anything `matchFrom` captures satisfies its group's grammar. -/
theorem matchFrom_inv (s : List Char) (g : RegexGroups) (h : matchFrom s = some g) :
    (∀ r, g.registry = some r → registryPat r = true)
    ∧ (∀ m, g.nspace = some m → SegList m)
    ∧ g.repository ≠ [] ∧ (∀ x ∈ g.repository, repoChar x = true)
    ∧ (∀ t, g.tag = some t → t ≠ [] ∧ (∀ x ∈ t, tagChar x = true))
    ∧ (∀ d, g.digest = some d → d ≠ [] ∧ (∀ x ∈ d, dotAny x = true)) := by
  unfold matchFrom at h
  obtain ⟨rg, hrg, h⟩ := exists_of_findSome? _ _ _ h
  obtain ⟨ns, hns, h⟩ := exists_of_findSome? _ _ _ h
  obtain ⟨rp, hrp, h⟩ := exists_of_findSome? _ _ _ h
  obtain ⟨tg, htg, h⟩ := exists_of_findSome? _ _ _ h
  obtain ⟨dg, hdg, h⟩ := exists_of_findSome? _ _ _ h
  have hg : g = ⟨rg.1, ns.1, rp.1, tg.1, dg.1⟩ := by
    by_cases hend : atEnd dg.2 = true
    · rw [if_pos hend] at h
      exact (Option.some.injEq _ _).mp h.symm
    · rw [if_neg hend] at h
      cases h
  subst hg
  have hreg := registryCands_inv s rg hrg
  have hnsi := nsCands_inv rg.2 ns hns
  have hrpi := repoCands_inv ns.2 rp hrp
  have htgi := tagCands_inv rp.2 tg htg
  have hdgi := digestCands_inv tg.2 dg hdg
  refine ⟨?_, ?_, hrpi.1, hrpi.2.1, ?_, ?_⟩
  · intro r hr
    rcases hreg with ⟨hnone, -⟩ | ⟨r', hr', hpat, -⟩
    · rw [hnone] at hr
      cases hr
    · rw [hr'] at hr
      cases hr
      exact hpat
  · intro m hm
    rcases hnsi with ⟨hnone, -⟩ | ⟨m', hm', hseg, -⟩
    · rw [hnone] at hm
      cases hm
    · rw [hm'] at hm
      cases hm
      exact hseg
  · intro t ht
    rcases htgi with ⟨hnone, -⟩ | ⟨t', ht', htne, htall, -⟩
    · rw [hnone] at ht
      cases ht
    · rw [ht'] at ht
      cases ht
      exact ⟨htne, htall⟩
  · intro d hd
    rcases hdgi with ⟨hnone, -⟩ | ⟨d', hd', hdne, hdall, -⟩
    · rw [hnone] at hd
      cases hd
    · rw [hd'] at hd
      cases hd
      exact ⟨hdne, hdall⟩

/-- A successful search produces a match of some start position. -/
theorem searchGroups_inv (r : List Char) (g : RegexGroups)
    (h : searchGroups r = some g) : ∃ s, matchFrom s = some g := by
  induction r with
  | nil => exact ⟨[], h⟩
  | cons c cs ih =>
    unfold searchGroups at h
    split at h
    · next heq =>
      cases h
      exact ⟨c :: cs, heq⟩
    · exact ih h

/-- All structural invariants of a parsed container. -/
theorem parseContainer_inv (r : List Char) (c : Container)
    (h : parseContainer r = some c) :
    registryPat c.registry = true
    ∧ (∀ n, c.nspace = some n → NsJoined n)
    ∧ c.repository ≠ [] ∧ (∀ x ∈ c.repository, repoChar x = true)
    ∧ c.tag ≠ [] ∧ (∀ x ∈ c.tag, tagChar x = true)
    ∧ (∀ d, c.digest = some d → d ≠ [] ∧ (∀ x ∈ d, dotAny x = true)) := by
  unfold parseContainer at h
  split at h
  · cases h
  · next g hg =>
    obtain ⟨s, hm⟩ := searchGroups_inv r g hg
    obtain ⟨hR, hN, hPne, hPall, hT, hD⟩ := matchFrom_inv s g hm
    rw [if_neg hPne] at h
    simp only [Option.some.injEq] at h
    subst h
    refine ⟨?_, ?_, hPne, hPall, ?_, ?_, hD⟩
    · show registryPat (match g.registry with
        | some r => if r = [] then index_name else r
        | none => index_name) = true
      cases hgr : g.registry with
      | none => decide
      | some rr =>
        have hpat := hR rr hgr
        show registryPat (if rr = [] then index_name else rr) = true
        rw [if_neg (registryPat_ne_nil rr hpat)]
        exact hpat
    · intro n hn
      revert hn
      show (match g.nspace with
        | some m => if m = [] then some m else some (pyStripSlash m)
        | none => none) = some n → NsJoined n
      cases hgn : g.nspace with
      | none => intro hn; cases hn
      | some m =>
        have hseg := hN m hgn
        obtain ⟨n', hn', hmeq, hstrip⟩ := segList_strip m hseg
        have hmne : m ≠ [] := by
          rw [hmeq]
          simp [nsJoined_ne_nil]
        show (if m = [] then some m else some (pyStripSlash m)) = some n → NsJoined n
        rw [if_neg hmne]
        intro hn
        cases hn
        rw [hstrip]
        exact hn'
    · show (match g.tag with
        | some t => if t = [] then default_tag else t
        | none => default_tag) ≠ []
      cases hgt : g.tag with
      | none => decide
      | some t =>
        obtain ⟨htne, -⟩ := hT t hgt
        show (if t = [] then default_tag else t) ≠ []
        rw [if_neg htne]
        exact htne
    · intro x
      show x ∈ (match g.tag with
        | some t => if t = [] then default_tag else t
        | none => default_tag) → tagChar x = true
      cases hgt : g.tag with
      | none =>
        intro hx
        have hdef : ∀ y ∈ default_tag, tagChar y = true := by decide
        exact hdef x hx
      | some t =>
        obtain ⟨htne, htall⟩ := hT t hgt
        show x ∈ (if t = [] then default_tag else t) → tagChar x = true
        rw [if_neg htne]
        exact fun hx => htall x hx

/-! ### Evaluating the matcher on an emitted reference -/

/-- The registry stage on `reg ++ "/" ++ rest`. -/
theorem registryCands_eval (reg rest : List Char) (hreg : registryPat reg = true) :
    registryCands (reg ++ '/' :: rest) = [(some reg, rest), (none, reg ++ '/' :: rest)] := by
  have hall : ∀ x ∈ reg, (fun c => decide (c ≠ '/')) x = true := by
    intro x hx
    have := List.all_eq_true.mp ((Bool.and_eq_true _ _).mp hreg).1 x hx
    simp [regChar] at this
    simp [this.1]
  have htw : (reg ++ '/' :: rest).takeWhile (fun c => c ≠ '/') = reg := by
    apply takeWhile_append_cons
    · exact hall
    · simp
  have hdrop : (reg ++ '/' :: rest).drop (reg.length + 1) = rest := drop_append_cons _ _ _
  have hcond : (decide (reg.length < (reg ++ '/' :: rest).length) && registryPat reg) = true := by
    rw [Bool.and_eq_true]
    exact ⟨by simp, hreg⟩
  unfold registryCands
  rw [htw]
  show (if (decide (reg.length < (reg ++ '/' :: rest).length) && registryPat reg) = true then
      [(some reg, (reg ++ '/' :: rest).drop (reg.length + 1)), (none, reg ++ '/' :: rest)]
    else [(none, reg ++ '/' :: rest)]) = _
  rw [hdrop, if_pos hcond]

/-- No namespace segment starts at a repository run followed by a
non-slash stopper. -/
theorem nsSplitsF_noseg (fuel : Nat) (repo : List Char) (c0 : Char) (t : List Char)
    (hrepo : ∀ x ∈ repo, repoChar x = true) (hc0 : repoChar c0 = false)
    (hc0s : c0 ≠ '/') : nsSplitsF fuel (repo ++ c0 :: t) = [] := by
  cases fuel with
  | zero => rfl
  | succ fuel =>
    have htw : (repo ++ c0 :: t).takeWhile repoChar = repo :=
      takeWhile_append_cons repoChar repo c0 t hrepo hc0
    have hdrop : (repo ++ c0 :: t).drop repo.length = c0 :: t := drop_append_cons_head _ _ _
    simp only [nsSplitsF, htw, hdrop]
    rw [if_neg]
    rintro ⟨-, hhead⟩
    rw [List.head?_cons] at hhead
    cases hhead
    exact hc0s rfl

/-- The namespace stage when the reference has no namespace. -/
theorem nsCands_eval_none (repo : List Char) (c0 : Char) (t : List Char)
    (hrepo : ∀ x ∈ repo, repoChar x = true) (hc0 : repoChar c0 = false)
    (hc0s : c0 ≠ '/') :
    nsCands (repo ++ c0 :: t) = [(none, repo ++ c0 :: t)] := by
  unfold nsCands
  rw [nsSplitsF_noseg _ repo c0 t hrepo hc0 hc0s]
  rfl

/-- The namespace splits of a segment list followed by a segment-free
tail: the full chain is the last split. -/
theorem nsSplitsF_eval (m : List Char) (hm : SegList m) :
    ∀ (rest : List Char), (∀ f, nsSplitsF f rest = []) →
    ∀ fuel, m.length ≤ fuel →
    ∃ pre, nsSplitsF fuel (m ++ rest) = pre ++ [(m, rest)] := by
  induction hm with
  | single seg hne hall =>
    intro rest hrest fuel hfuel
    have hlen : seg.length + 1 ≤ fuel := by
      have := hfuel
      simp at this
      omega
    cases fuel with
    | zero => omega
    | succ fuel =>
      have hs : (seg ++ ['/']) ++ rest = seg ++ '/' :: rest := by simp
      rw [hs]
      have htw : (seg ++ '/' :: rest).takeWhile repoChar = seg :=
        takeWhile_append_cons repoChar seg '/' rest hall (by decide)
      have hdrop : (seg ++ '/' :: rest).drop seg.length = '/' :: rest :=
        drop_append_cons_head _ _ _
      have hdrop1 : (seg ++ '/' :: rest).drop (seg.length + 1) = rest :=
        drop_append_cons _ _ _
      simp only [nsSplitsF, htw, hdrop, hdrop1]
      rw [if_pos]
      · rw [hrest fuel]
        exact ⟨[], by simp⟩
      · constructor
        · intro habs
          rw [List.length_eq_zero] at habs
          exact hne habs
        · rfl
  | cons seg m' hne hall hm' ih =>
    intro rest hrest fuel hfuel
    have hlen : seg.length + 1 + m'.length ≤ fuel := by
      have := hfuel
      simp at this
      omega
    cases fuel with
    | zero => omega
    | succ fuel =>
      have hs : (seg ++ '/' :: m') ++ rest = seg ++ '/' :: (m' ++ rest) := by simp
      rw [hs]
      have hm'all : ∀ x ∈ seg, repoChar x = true := hall
      have htw : (seg ++ '/' :: (m' ++ rest)).takeWhile repoChar = seg :=
        takeWhile_append_cons repoChar seg '/' (m' ++ rest) hm'all (by decide)
      have hdrop : (seg ++ '/' :: (m' ++ rest)).drop seg.length = '/' :: (m' ++ rest) :=
        drop_append_cons_head _ _ _
      have hdrop1 : (seg ++ '/' :: (m' ++ rest)).drop (seg.length + 1) = m' ++ rest :=
        drop_append_cons _ _ _
      simp only [nsSplitsF, htw, hdrop, hdrop1]
      rw [if_pos]
      · obtain ⟨pre', hpre'⟩ := ih rest hrest fuel (by omega)
        rw [hpre']
        refine ⟨(seg ++ ['/'], m' ++ rest) ::
          pre'.map (fun pr => (seg ++ '/' :: pr.1, pr.2)), ?_⟩
        simp
      · constructor
        · intro habs
          rw [List.length_eq_zero] at habs
          exact hne habs
        · rfl

/-- The namespace stage when the reference has a namespace. -/
theorem nsCands_eval_some (m rest : List Char) (hm : SegList m)
    (hrest : ∀ f, nsSplitsF f rest = []) :
    ∃ tail0, nsCands (m ++ rest) = (some m, rest) :: tail0 := by
  obtain ⟨pre, hpre⟩ := nsSplitsF_eval m hm rest hrest (m ++ rest).length (by simp)
  unfold nsCands
  rw [hpre]
  refine ⟨pre.reverse.map (fun pr => (some pr.1, pr.2)) ++ [(none, m ++ rest)], ?_⟩
  simp

/-- The repository stage on the repository run followed by its stopper. -/
theorem repoCands_eval (repo : List Char) (c0 : Char) (t : List Char)
    (hne : repo ≠ []) (hrepo : ∀ x ∈ repo, repoChar x = true)
    (hc0 : repoChar c0 = false) :
    ∃ tail0, repoCands (repo ++ c0 :: t) = (repo, c0 :: t) :: tail0 := by
  unfold repoCands greedyCands
  have htw : (repo ++ c0 :: t).takeWhile repoChar = repo :=
    takeWhile_append_cons repoChar repo c0 t hrepo hc0
  rw [htw]
  cases hlen : repo.length with
  | zero =>
    rw [List.length_eq_zero] at hlen
    exact absurd hlen hne
  | succ k =>
    rw [List.range_succ_eq_map]
    refine ⟨(List.map Nat.succ (List.range k)).map
      (fun i => ((repo ++ c0 :: t).take (k + 1 - i), (repo ++ c0 :: t).drop (k + 1 - i))), ?_⟩
    rw [List.map_cons]
    congr 1
    have h1 : (repo ++ c0 :: t).take (k + 1 - 0) = repo := by
      rw [Nat.sub_zero, ← hlen, List.take_left]
    have h2 : (repo ++ c0 :: t).drop (k + 1 - 0) = c0 :: t := by
      rw [Nat.sub_zero, ← hlen, List.drop_left]
    rw [h1, h2]

/-- A greedy run over its own full extent: the first candidate takes
everything. -/
theorem greedyCands_self (t : List Char) (hne : t ≠ []) :
    ∃ tail0, greedyCands t t = (t, ([] : List Char)) :: tail0 := by
  unfold greedyCands
  cases hlen : t.length with
  | zero =>
    rw [List.length_eq_zero] at hlen
    exact absurd hlen hne
  | succ k =>
    rw [List.range_succ_eq_map]
    refine ⟨(List.map Nat.succ (List.range k)).map
      (fun i => (t.take (k + 1 - i), t.drop (k + 1 - i))), ?_⟩
    rw [List.map_cons]
    congr 1
    have h1 : t.take (k + 1 - 0) = t := by
      rw [Nat.sub_zero, ← hlen, List.take_length]
    have h2 : t.drop (k + 1 - 0) = ([] : List Char) := by
      rw [Nat.sub_zero, ← hlen, List.drop_length]
    rw [h1, h2]

/-- The tag stage on `:` plus a full tag: the first candidate captures
the whole tag and leaves nothing. -/
theorem tagCands_eval_some (t : List Char) (hne : t ≠ [])
    (hall : ∀ x ∈ t, tagChar x = true) :
    ∃ tail0, tagCands (':' :: t) = (some t, ([] : List Char)) :: tail0 := by
  have htw : t.takeWhile tagChar = t := takeWhile_eq_self_of_all tagChar t hall
  obtain ⟨g0, hg0⟩ := greedyCands_self t hne
  refine ⟨g0.map (fun pr => (some pr.1, pr.2)) ++ [(none, ':' :: t)], ?_⟩
  simp [tagCands, htw, hg0]

/-- The tag stage starting at `@`: only the empty option. -/
theorem tagCands_eval_at (rest : List Char) :
    tagCands ('@' :: rest) = [(none, '@' :: rest)] := by
  simp [tagCands]

/-- The digest stage on an exhausted input: only the empty option. -/
theorem digestCands_nil : digestCands [] = [(none, [])] := rfl

/-- The digest stage on `@` plus a full digest: the first candidate
captures the whole digest and leaves nothing. -/
theorem digestCands_eval_some (d : List Char) (hne : d ≠ [])
    (hall : ∀ x ∈ d, dotAny x = true) :
    ∃ tail0, digestCands ('@' :: d) = (some d, ([] : List Char)) :: tail0 := by
  have htw : d.takeWhile dotAny = d := takeWhile_eq_self_of_all dotAny d hall
  obtain ⟨g0, hg0⟩ := greedyCands_self d hne
  refine ⟨g0.map (fun pr => (some pr.1, pr.2)) ++ [(none, '@' :: d)], ?_⟩
  simp [digestCands, htw, hg0]

/-- The tag and digest stages on a `:tag` suffix succeed at once,
capturing the tag and no digest. -/
theorem suffix_eval_tag (reg : List Char) (nsm : Option (List Char))
    (repo : List Char) (t : List Char) (hne : t ≠ [])
    (hall : ∀ x ∈ t, tagChar x = true) :
    ((tagCands (':' :: t)).findSome? fun tg =>
      (digestCands tg.2).findSome? fun dg =>
      if atEnd dg.2 then some (⟨some reg, nsm, repo, tg.1, dg.1⟩ : RegexGroups)
      else none) = some ⟨some reg, nsm, repo, some t, none⟩ := by
  obtain ⟨tt, htt⟩ := tagCands_eval_some t hne hall
  rw [htt]
  exact findSome?_head _ tt _ _ rfl

/-- The tag and digest stages on an `@digest` suffix succeed at once,
capturing the digest and no tag. -/
theorem suffix_eval_digest (reg : List Char) (nsm : Option (List Char))
    (repo : List Char) (d : List Char) (hne : d ≠ [])
    (hall : ∀ x ∈ d, dotAny x = true) :
    ((tagCands ('@' :: d)).findSome? fun tg =>
      (digestCands tg.2).findSome? fun dg =>
      if atEnd dg.2 then some (⟨some reg, nsm, repo, tg.1, dg.1⟩ : RegexGroups)
      else none) = some ⟨some reg, nsm, repo, none, some d⟩ := by
  rw [tagCands_eval_at]
  apply findSome?_head
  show (digestCands ('@' :: d)).findSome? _ = _
  obtain ⟨dt, hdt⟩ := digestCands_eval_some d hne hall
  rw [hdt]
  exact findSome?_head _ dt _ _ rfl

/-- A match at the start of the string is what `re.search` returns. -/
theorem searchGroups_of_matchFrom (s : List Char) (g : RegexGroups)
    (h : matchFrom s = some g) : searchGroups s = some g := by
  cases s with
  | nil => exact h
  | cons c cs => simp only [searchGroups, h]

/-- Evaluating the anchored matcher on an emitted reference: the first
backtracking chain takes the registry, the whole namespace, the full
repository run, and hands the suffix to the tag and digest stages. -/
theorem matchFrom_eval (reg : List Char) (hreg : registryPat reg = true)
    (nsm : Option (List Char)) (hns : ∀ m, nsm = some m → SegList m)
    (repo : List Char) (hrne : repo ≠ []) (hrall : ∀ x ∈ repo, repoChar x = true)
    (c0 : Char) (suf : List Char) (hc0 : repoChar c0 = false) (hc0s : c0 ≠ '/')
    (g : RegexGroups)
    (hsuf : ((tagCands (c0 :: suf)).findSome? fun tg =>
        (digestCands tg.2).findSome? fun dg =>
        if atEnd dg.2 then some (⟨some reg, nsm, repo, tg.1, dg.1⟩ : RegexGroups)
        else none) = some g) :
    matchFrom (reg ++ '/' :: (nsm.getD [] ++ (repo ++ c0 :: suf))) = some g := by
  unfold matchFrom
  rw [registryCands_eval reg _ hreg]
  apply findSome?_head
  show (nsCands (nsm.getD [] ++ (repo ++ c0 :: suf))).findSome? (fun ns =>
      (repoCands ns.2).findSome? fun rp =>
      (tagCands rp.2).findSome? fun tg =>
      (digestCands tg.2).findSome? fun dg =>
      if atEnd dg.2 then some (⟨some reg, ns.1, rp.1, tg.1, dg.1⟩ : RegexGroups)
      else none) = some g
  obtain ⟨rt, hrt⟩ := repoCands_eval repo c0 suf hrne hrall hc0
  cases nsm with
  | none =>
    show (nsCands (repo ++ c0 :: suf)).findSome? _ = some g
    rw [nsCands_eval_none repo c0 suf hrall hc0 hc0s]
    apply findSome?_head
    show (repoCands (repo ++ c0 :: suf)).findSome? _ = some g
    rw [hrt]
    apply findSome?_head
    show (tagCands (c0 :: suf)).findSome? _ = some g
    exact hsuf
  | some m =>
    have hseg : SegList m := hns m rfl
    have hrest : ∀ f, nsSplitsF f (repo ++ c0 :: suf) = [] :=
      fun f => nsSplitsF_noseg f repo c0 suf hrall hc0 hc0s
    obtain ⟨nt, hnt⟩ := nsCands_eval_some m (repo ++ c0 :: suf) hseg hrest
    show (nsCands (m ++ (repo ++ c0 :: suf))).findSome? _ = some g
    rw [hnt]
    apply findSome?_head
    show (repoCands (repo ++ c0 :: suf)).findSome? _ = some g
    rw [hrt]
    apply findSome?_head
    show (tagCands (c0 :: suf)).findSome? _ = some g
    exact hsuf

/-! ## Claim C5: digest precedence in manifest addressing -/

/-- C5.  The claim (and the spec's data-model invariant) says a present
digest takes precedence over the tag for manifest addressing, so
`manifest_url()` built without an argument should address the digest.
Evaluating the code at a digest-carrying reference shows `manifest_url()`
uses the tag: the digest never appears in the URL. -/
theorem c5_manifest_url_uses_tag :
    parseContainer ("ghcr.io/org/proj/repo:v1.2@sha256:abcd".toList)
      = some ⟨"ghcr.io".toList, some ("org/proj".toList), "repo".toList,
              "v1.2".toList, some ("sha256:abcd".toList)⟩
    ∧ manifest_url ⟨"ghcr.io".toList, some ("org/proj".toList), "repo".toList,
        "v1.2".toList, some ("sha256:abcd".toList)⟩ none
      = "ghcr.io/v2/org/proj/repo/manifests/v1.2".toList
    ∧ "ghcr.io/v2/org/proj/repo/manifests/v1.2".toList
      ≠ "ghcr.io/v2/org/proj/repo/manifests/sha256:abcd".toList := by
  refine ⟨by decide, by decide, by decide⟩

/-! ## Claim C7: parse/emit round-trip -/

/-- C7 counterexample.  A reference carrying both a tag and a digest:
`uri` drops the tag in favour of the digest, and re-parsing defaults the
tag to `latest`, so `parse(emit(parse(r)))` differs from `parse(r)`. -/
theorem c7_counterexample :
    parseContainer ("ghcr.io/org/repo:v1.2@sha256:abcd".toList)
      = some ⟨"ghcr.io".toList, some ("org".toList), "repo".toList,
              "v1.2".toList, some ("sha256:abcd".toList)⟩
    ∧ uri ⟨"ghcr.io".toList, some ("org".toList), "repo".toList,
           "v1.2".toList, some ("sha256:abcd".toList)⟩
      = "ghcr.io/org/repo@sha256:abcd".toList
    ∧ parseContainer ("ghcr.io/org/repo@sha256:abcd".toList)
      = some ⟨"ghcr.io".toList, some ("org".toList), "repo".toList,
              "latest".toList, some ("sha256:abcd".toList)⟩
    ∧ (⟨"ghcr.io".toList, some ("org".toList), "repo".toList,
        "latest".toList, some ("sha256:abcd".toList)⟩ : Container)
      ≠ ⟨"ghcr.io".toList, some ("org".toList), "repo".toList,
         "v1.2".toList, some ("sha256:abcd".toList)⟩ := by
  refine ⟨by decide, by decide, by decide, by decide⟩

/-- C7.  The round trip on the emitted canonical form: for every
reference `r` the parser accepts, `parse (emit (parse r))` equals
`parse r` itself except that the tag collapses to the default `latest`
whenever the reference carries a digest, because `uri` drops the tag in
favour of the digest.  The claim's unconditional equality holds exactly
when no digest is present. -/
theorem c7_parse_uri_amended (r : List Char) (c : Container)
    (h : parseContainer r = some c) :
    parseContainer (uri c)
      = some ⟨c.registry, c.nspace, c.repository,
              (match c.digest with
               | some _ => default_tag
               | none => c.tag), c.digest⟩ := by
  obtain ⟨hR, hN, hPne, hPall, hTne, hTall, hD⟩ := parseContainer_inv r c h
  obtain ⟨creg, cns, crepo, ctag, cdig⟩ := c
  have hRne : creg ≠ [] := registryPat_ne_nil creg hR
  cases cns with
  | some n =>
    have hNJ : NsJoined n := hN n rfl
    have hnne : n ≠ [] := nsJoined_ne_nil n hNJ
    have hmne : n ++ ['/'] ≠ [] := by simp
    have hseg : ∀ m, (some (n ++ ['/']) : Option (List Char)) = some m → SegList m := by
      intro m hm
      rw [Option.some_inj] at hm
      rw [← hm]
      exact nsJoined_to_segList n hNJ
    cases cdig with
    | some d =>
      obtain ⟨hdne, hdall⟩ := hD d rfl
      have hu : uri ⟨creg, some n, crepo, ctag, some d⟩
          = creg ++ '/' :: ((n ++ ['/']) ++ (crepo ++ '@' :: d)) := by
        simp [uri, hnne, hRne, hdne]
      have hm := matchFrom_eval creg hR (some (n ++ ['/'])) hseg crepo hPne hPall
        '@' d (by decide) (by decide) _
        (suffix_eval_digest creg (some (n ++ ['/'])) crepo d hdne hdall)
      have hs : searchGroups (uri ⟨creg, some n, crepo, ctag, some d⟩)
          = some ⟨some creg, some (n ++ ['/']), crepo, none, some d⟩ := by
        rw [hu]
        exact searchGroups_of_matchFrom _ _ hm
      simp only [parseContainer, hs]
      rw [if_neg hPne, if_neg hRne, if_neg hmne, nsJoined_strip n hNJ]
    | none =>
      have hu : uri ⟨creg, some n, crepo, ctag, none⟩
          = creg ++ '/' :: ((n ++ ['/']) ++ (crepo ++ ':' :: ctag)) := by
        simp [uri, hnne, hRne, hTne]
      have hm := matchFrom_eval creg hR (some (n ++ ['/'])) hseg crepo hPne hPall
        ':' ctag (by decide) (by decide) _
        (suffix_eval_tag creg (some (n ++ ['/'])) crepo ctag hTne hTall)
      have hs : searchGroups (uri ⟨creg, some n, crepo, ctag, none⟩)
          = some ⟨some creg, some (n ++ ['/']), crepo, some ctag, none⟩ := by
        rw [hu]
        exact searchGroups_of_matchFrom _ _ hm
      simp only [parseContainer, hs]
      rw [if_neg hPne, if_neg hRne, if_neg hmne, nsJoined_strip n hNJ, if_neg hTne]
  | none =>
    have hseg : ∀ m, (none : Option (List Char)) = some m → SegList m :=
      fun m hm => Option.noConfusion hm
    cases cdig with
    | some d =>
      obtain ⟨hdne, hdall⟩ := hD d rfl
      have hu : uri ⟨creg, none, crepo, ctag, some d⟩
          = creg ++ '/' :: (crepo ++ '@' :: d) := by
        simp [uri, hRne, hdne]
      have hm := matchFrom_eval creg hR none hseg crepo hPne hPall
        '@' d (by decide) (by decide) _
        (suffix_eval_digest creg none crepo d hdne hdall)
      have hs : searchGroups (uri ⟨creg, none, crepo, ctag, some d⟩)
          = some ⟨some creg, none, crepo, none, some d⟩ := by
        rw [hu]
        exact searchGroups_of_matchFrom _ _ hm
      simp only [parseContainer, hs]
      rw [if_neg hPne, if_neg hRne]
    | none =>
      have hu : uri ⟨creg, none, crepo, ctag, none⟩
          = creg ++ '/' :: (crepo ++ ':' :: ctag) := by
        simp [uri, hRne, hTne]
      have hm := matchFrom_eval creg hR none hseg crepo hPne hPall
        ':' ctag (by decide) (by decide) _
        (suffix_eval_tag creg none crepo ctag hTne hTall)
      have hs : searchGroups (uri ⟨creg, none, crepo, ctag, none⟩)
          = some ⟨some creg, none, crepo, some ctag, none⟩ := by
        rw [hu]
        exact searchGroups_of_matchFrom _ _ hm
      simp only [parseContainer, hs]
      rw [if_neg hPne, if_neg hRne, if_neg hTne]

/-- C7 witness: the amended round trip evaluated at a concrete
digest-carrying reference. -/
theorem c7_parse_uri_amended_witness :
    parseContainer ("ghcr.io/org/proj/repo:v1.2@sha256:abcd".toList)
      = some ⟨"ghcr.io".toList, some ("org/proj".toList), "repo".toList,
              "v1.2".toList, some ("sha256:abcd".toList)⟩
    ∧ parseContainer (uri ⟨"ghcr.io".toList, some ("org/proj".toList), "repo".toList,
        "v1.2".toList, some ("sha256:abcd".toList)⟩)
      = some ⟨"ghcr.io".toList, some ("org/proj".toList), "repo".toList,
              "latest".toList, some ("sha256:abcd".toList)⟩ :=
  ⟨by decide,
   c7_parse_uri_amended ("ghcr.io/org/proj/repo:v1.2@sha256:abcd".toList)
     ⟨"ghcr.io".toList, some ("org/proj".toList), "repo".toList,
      "v1.2".toList, some ("sha256:abcd".toList)⟩ (by decide)⟩

end Oras
